import Mathlib

/-
Verification of the weight-balanced tree ("wb") repository.

The node layer (include/tree/node.hpp) is embedded functionally: a `Node` is
either absent (`leaf`, the C++ null pointer) or carries a value, the *stored*
`size_` field, and the two child subtrees.  Parent pointers are represented
implicitly: an iterator is modelled as the path from the node up to the root
(see the `Dir` section below), where following the `parent_` pointer is
popping the head of the path and the sentinel is the empty-path/`none` state.
Positions handed to `insert`/`erase`/`exchange_elements` are modelled as
inorder indices (an iterator to the i-th element; `size t` is `end()`).

The C++ code updates `size_` fields by `++`/`--`/`recalculate_size`; the
embedding rebuilds each touched node with `mknode`, which recomputes the stored
size from the children's stored sizes.  On trees whose stored sizes are
correct (`sizeOk`, an invariant all operations preserve) the two agree.

`exchange_nodes` manipulates raw pointers and node identities, so it is
additionally embedded at the pointer level: a heap maps addresses to records
with `value_`, `size_`, `left_`, `right_`, `parent_` fields, and the C++
statement sequence is translated write by write.
-/

namespace WB

inductive Node where
  | leaf : Node
  | node : Int → Nat → Node → Node → Node
deriving DecidableEq, Repr

open Node

/-- `size(s) = s ? s->size_ : 0`: reads the stored size field. -/
def size : Node → Nat
  | leaf => 0
  | node _ s _ _ => s

/-- Rebuild a node, recomputing the stored size field
(`recalculate_size`). -/
def mknode (v : Int) (l r : Node) : Node := node v (size l + size r + 1) l r

/-- The inorder sequence of values. -/
def toList : Node → List Int
  | leaf => []
  | node v _ l r => toList l ++ v :: toList r

/-- `is_balanced(left, right) = 3 * (size(left) + 1) >= size(right) + 1`. -/
def is_balanced (l r : Node) : Bool := 3 * (size l + 1) ≥ size r + 1

/-- `is_single(left, right) = size(left) + 1 <= 2 * (size(right) + 1)`. -/
def is_single (l r : Node) : Bool := size l + 1 ≤ 2 * (size r + 1)

/-- `balance_left`: repair a right-heavy node by a single or double rotation.
Straight translation of the pointer code; the `leaf` fallthroughs correspond
to null dereferences in C++ and are unreachable when the rotation is needed. -/
def balance_left : Node → Node
  | leaf => leaf
  | node va sa la ra =>
    if is_balanced la ra then node va sa la ra
    else
      match ra with
      | leaf => node va sa la ra
      | node vb _ lb rb =>
        if is_single lb rb then
          mknode vb (mknode va la lb) rb
        else
          match lb with
          | leaf => node va sa la ra
          | node vc _ lc rc => mknode vc (mknode va la lc) (mknode vb rc rb)

/-- `balance_right`: mirror image of `balance_left`. -/
def balance_right : Node → Node
  | leaf => leaf
  | node va sa la ra =>
    if is_balanced ra la then node va sa la ra
    else
      match la with
      | leaf => node va sa la ra
      | node vb _ lb rb =>
        if is_single rb lb then
          mknode vb lb (mknode va rb ra)
        else
          match rb with
          | leaf => node va sa la ra
          | node vc _ lc rc => mknode vc (mknode vb lb lc) (mknode va rc ra)

/-- `insert_before_self` at the node with inorder index `i` (`i = size t`
inserts before the sentinel, i.e. at the end).  The C++ attaches the new node
below the rightmost node of the position's left subtree (or as the position's
left child) and then walks up with `balance_above(+1)`: each ancestor gets its
size bumped and, according to the side the insertion happened on, a
`balance_left`/`balance_right` call.  The recursion performs the identical
size updates and balance calls on the identical path, bottom up. -/
def insert_before_self : Node → Nat → Int → Node
  | leaf, _, x => node x 1 leaf leaf
  | node v _ l r, i, x =>
    if i ≤ size l then balance_right (mknode v (insert_before_self l i x) r)
    else balance_left (mknode v l (insert_before_self r (i - size l - 1) x))

/-- Detach the leftmost node of a subtree, rebalancing with `balance_left`
at each node left behind: this is the `erase_self` two-children path, where
the inorder successor `p` is unhooked from its parent `q` and
`q->balance_left(); ...->balance_above(-1)` repairs the spine it came from. -/
def split_min : Node → Int × Node
  | leaf => (0, leaf)
  | node v _ leaf r => (v, r)
  | node v _ (node lv ls ll lr) r =>
    let p := split_min (node lv ls ll lr)
    (p.1, balance_left (mknode v p.2 r))

/-- `erase_self` at the node with inorder index `i`.
At most one child: the child is spliced into the slot and the parent (the
enclosing recursion frame) rebalances.  Two children: the inorder successor
(leftmost node of `r`, extracted by `split_min`) replaces the node, and
`balance_right` runs at the replacement, exactly as `p->balance_right()` /
the `balance_above(-1)` step entering `p` from its right side does in C++. -/
def erase_self : Node → Nat → Node
  | leaf, _ => leaf
  | node v _ l r, i =>
    if i < size l then balance_left (mknode v (erase_self l i) r)
    else if size l < i then balance_right (mknode v l (erase_self r (i - size l - 1)))
    else
      match l, r with
      | leaf, _ => r
      | node lv ls ll lr, leaf => node lv ls ll lr
      | node lv ls ll lr, node rv rs rl rr =>
        let p := split_min (node rv rs rl rr)
        balance_right (mknode p.1 (node lv ls ll lr) p.2)

/-- `lower_bound_node`, returning the inorder index of the resulting
iterator (`size t` is the sentinel).  When `cmp < 0` and there is no right
child the C++ answers with the node's inorder successor, i.e. the index one
past the current node; when `cmp >= 0` and there is no left child it answers
with the current node itself. -/
def lower_bound_node : Node → (Int → Int) → Nat
  | leaf, _ => 0
  | node v _ l r, cmp =>
    if cmp v < 0 then size l + 1 + lower_bound_node r cmp
    else lower_bound_node l cmp

/-- `upper_bound_node`: identical descent with the test `cmp <= 0`. -/
def upper_bound_node : Node → (Int → Int) → Nat
  | leaf, _ => 0
  | node v _ l r, cmp =>
    if cmp v ≤ 0 then size l + 1 + upper_bound_node r cmp
    else upper_bound_node l cmp

/-- Modelled from the spec: `equal_range_nodes` is called from
`wb/tree.hpp` but its definition is not among the sources; per the spec it
returns `(lower_bound_node(root,cmp), upper_bound_node(root,cmp))`. -/
def equal_range_nodes (t : Node) (cmp : Int → Int) : Nat × Nat :=
  (lower_bound_node t cmp, upper_bound_node t cmp)

/-- Modelled from the spec: `range_between_nodes` is called from
`wb/tree.hpp` but its definition is not among the sources; per the spec it
returns `(lower_bound_node(root,lcmp), upper_bound_node(root,rcmp))`. -/
def range_between_nodes (t : Node) (lcmp rcmp : Int → Int) : Nat × Nat :=
  (lower_bound_node t lcmp, upper_bound_node t rcmp)

/-- `tree::lower_bound`: the facade checks `sentinel_.left_` and returns
`end()` (index `size t = 0`) on the empty tree without descending. -/
def tree_lower_bound (t : Node) (cmp : Int → Int) : Nat :=
  match t with
  | leaf => 0
  | node v s l r => lower_bound_node (node v s l r) cmp

/-- `tree::upper_bound` with the same empty-tree guard. -/
def tree_upper_bound (t : Node) (cmp : Int → Int) : Nat :=
  match t with
  | leaf => 0
  | node v s l r => upper_bound_node (node v s l r) cmp

/-- `tree::equal_range` with the same empty-tree guard. -/
def tree_equal_range (t : Node) (cmp : Int → Int) : Nat × Nat :=
  match t with
  | leaf => (0, 0)
  | node v s l r => equal_range_nodes (node v s l r) cmp

/-- `tree::range_between` with the same empty-tree guard. -/
def tree_range_between (t : Node) (lcmp rcmp : Int → Int) : Nat × Nat :=
  match t with
  | leaf => (0, 0)
  | node v s l r => range_between_nodes (node v s l r) lcmp rcmp

/-- The stored-size invariant:
`size(n) == size(n.left) + size(n.right) + 1` at every node. -/
def sizeOk : Node → Bool
  | leaf => true
  | node _ s l r => (s == size l + size r + 1) && sizeOk l && sizeOk r

/-- The weight-balance invariant, checked symmetrically at every node. -/
def balancedB : Node → Bool
  | leaf => true
  | node _ _ l r => is_balanced l r && is_balanced r l && balancedB l && balancedB r

theorem size_mknode (v : Int) (l r : Node) :
    size (mknode v l r) = size l + size r + 1 := rfl

theorem toList_mknode (v : Int) (l r : Node) :
    toList (mknode v l r) = toList l ++ v :: toList r := rfl

theorem sizeOk_node_iff (v : Int) (s : Nat) (l r : Node) :
    sizeOk (node v s l r) = true ↔
      s = size l + size r + 1 ∧ sizeOk l = true ∧ sizeOk r = true := by
  simp [sizeOk, and_assoc]

theorem sizeOk_mknode (v : Int) (l r : Node)
    (hl : sizeOk l = true) (hr : sizeOk r = true) :
    sizeOk (mknode v l r) = true := by
  simp [mknode, sizeOk_node_iff, hl, hr]

theorem length_toList (t : Node) (h : sizeOk t = true) :
    (toList t).length = size t := by
  induction t with
  | leaf => rfl
  | node v s l r ihl ihr =>
    rw [sizeOk_node_iff] at h
    simp [toList, size, h.1, ihl h.2.1, ihr h.2.2]
    omega

theorem toList_balance_left (t : Node) : toList (balance_left t) = toList t := by
  unfold balance_left
  split
  · rfl
  · split
    · rfl
    · split
      · rfl
      · split
        · simp [toList, mknode]
        · split
          · rfl
          · simp [toList, mknode]

theorem toList_balance_right (t : Node) : toList (balance_right t) = toList t := by
  unfold balance_right
  split
  · rfl
  · split
    · rfl
    · split
      · rfl
      · split
        · simp [toList, mknode]
        · split
          · rfl
          · simp [toList, mknode]

theorem sizeOk_balance_left (t : Node) (h : sizeOk t = true) :
    sizeOk (balance_left t) = true := by
  unfold balance_left
  split
  · exact h
  next v s l r =>
    split
    · exact h
    · split
      · exact h
      next vb sb lb rb =>
        rw [sizeOk_node_iff] at h
        obtain ⟨hs, hl, hr⟩ := h
        rw [sizeOk_node_iff] at hr
        obtain ⟨hsb, hlb, hrb⟩ := hr
        split
        · exact sizeOk_mknode _ _ _ (sizeOk_mknode _ _ _ hl hlb) hrb
        · split
          · simp [sizeOk_node_iff, hs, hl, hsb, hlb, hrb]
          next vc sc lc rc =>
            rw [sizeOk_node_iff] at hlb
            obtain ⟨hsc, hlc, hrc⟩ := hlb
            exact sizeOk_mknode _ _ _ (sizeOk_mknode _ _ _ hl hlc)
              (sizeOk_mknode _ _ _ hrc hrb)

theorem sizeOk_balance_right (t : Node) (h : sizeOk t = true) :
    sizeOk (balance_right t) = true := by
  unfold balance_right
  split
  · exact h
  next v s l r =>
    split
    · exact h
    · split
      · exact h
      next vb sb lb rb =>
        rw [sizeOk_node_iff] at h
        obtain ⟨hs, hl, hr⟩ := h
        rw [sizeOk_node_iff] at hl
        obtain ⟨hsb, hlb, hrb⟩ := hl
        split
        · exact sizeOk_mknode _ _ _ hlb (sizeOk_mknode _ _ _ hrb hr)
        · split
          · simp [sizeOk_node_iff, hs, hr, hsb, hlb, hrb]
          next vc sc lc rc =>
            rw [sizeOk_node_iff] at hrb
            obtain ⟨hsc, hlc, hrc⟩ := hrb
            exact sizeOk_mknode _ _ _ (sizeOk_mknode _ _ _ hlb hlc)
              (sizeOk_mknode _ _ _ hrc hr)

theorem size_balance_left (t : Node) (h : sizeOk t = true) :
    size (balance_left t) = size t := by
  have h1 := length_toList t h
  have h2 := length_toList (balance_left t) (sizeOk_balance_left t h)
  rw [toList_balance_left] at h2
  omega

theorem size_balance_right (t : Node) (h : sizeOk t = true) :
    size (balance_right t) = size t := by
  have h1 := length_toList t h
  have h2 := length_toList (balance_right t) (sizeOk_balance_right t h)
  rw [toList_balance_right] at h2
  omega

theorem take_app_le {α : Type} (xs ys : List α) (i : Nat) (h : i ≤ xs.length) :
    (xs ++ ys).take i = xs.take i := by
  induction xs generalizing i with
  | nil => simp at h; simp [h]
  | cons a xs ih =>
    cases i with
    | zero => rfl
    | succ j => simp [List.take_succ_cons, ih j (by simpa using h)]

theorem drop_app_le {α : Type} (xs ys : List α) (i : Nat) (h : i ≤ xs.length) :
    (xs ++ ys).drop i = xs.drop i ++ ys := by
  induction xs generalizing i with
  | nil => simp at h; simp [h]
  | cons a xs ih =>
    cases i with
    | zero => rfl
    | succ j => simp [List.drop_succ_cons, ih j (by simpa using h)]

theorem take_app_ge {α : Type} (xs ys : List α) (k : Nat) :
    (xs ++ ys).take (xs.length + k) = xs ++ ys.take k := by
  induction xs with
  | nil => simp
  | cons a xs ih => simp [List.take_succ_cons, Nat.succ_add, ih]

theorem drop_app_ge {α : Type} (xs ys : List α) (k : Nat) :
    (xs ++ ys).drop (xs.length + k) = ys.drop k := by
  induction xs with
  | nil => simp
  | cons a xs ih => simp [List.drop_succ_cons, Nat.succ_add, ih]

theorem toList_insert_before_self (t : Node) (i : Nat) (x : Int)
    (hs : sizeOk t = true) (hi : i ≤ size t) :
    toList (insert_before_self t i x) =
      (toList t).take i ++ x :: (toList t).drop i := by
  induction t generalizing i with
  | leaf =>
    have : i = 0 := by simpa [size] using hi
    simp [this, insert_before_self, toList]
  | node v s l r ihl ihr =>
    rw [sizeOk_node_iff] at hs
    obtain ⟨hsz, hl, hr⟩ := hs
    have hlen : (toList l).length = size l := length_toList l hl
    rw [insert_before_self]
    by_cases hc : i ≤ size l
    · rw [if_pos hc, toList_balance_right, toList_mknode, ihl i hl hc, toList]
      rw [take_app_le _ _ i (by omega), drop_app_le _ _ i (by omega)]
      simp
    · obtain ⟨k, hk⟩ : ∃ k, i = size l + 1 + k := ⟨i - size l - 1, by omega⟩
      subst hk
      have hk2 : size l + 1 + k - size l - 1 = k := by omega
      rw [if_neg hc, toList_balance_left, toList_mknode, hk2,
        ihr k hr (by have hi2 : size l + 1 + k ≤ s := hi; omega), toList]
      rw [show size l + 1 + k = (toList l ++ [v]).length + k by simp [hlen]]
      rw [show toList l ++ v :: toList r = (toList l ++ [v]) ++ toList r by simp]
      rw [take_app_ge, drop_app_ge]
      simp

theorem sizeOk_insert_before_self (t : Node) (i : Nat) (x : Int)
    (hs : sizeOk t = true) :
    sizeOk (insert_before_self t i x) = true := by
  induction t generalizing i with
  | leaf => rfl
  | node v s l r ihl ihr =>
    rw [sizeOk_node_iff] at hs
    obtain ⟨hsz, hl, hr⟩ := hs
    rw [insert_before_self]
    by_cases hc : i ≤ size l
    · rw [if_pos hc]
      exact sizeOk_balance_right _ (sizeOk_mknode _ _ _ (ihl i hl) hr)
    · rw [if_neg hc]
      exact sizeOk_balance_left _ (sizeOk_mknode _ _ _ hl (ihr _ hr))

theorem size_insert_before_self (t : Node) (i : Nat) (x : Int)
    (hs : sizeOk t = true) (hi : i ≤ size t) :
    size (insert_before_self t i x) = size t + 1 := by
  have h1 := length_toList _ (sizeOk_insert_before_self t i x hs)
  rw [toList_insert_before_self t i x hs hi] at h1
  have h2 := length_toList t hs
  simp [List.length_append, List.length_take, List.length_drop] at h1
  omega

theorem split_min_spec (t : Node) (hne : t ≠ leaf) (hs : sizeOk t = true) :
    toList t = (split_min t).1 :: toList (split_min t).2 ∧
      sizeOk (split_min t).2 = true := by
  induction t with
  | leaf => exact absurd rfl hne
  | node v s l r ihl ihr =>
    rw [sizeOk_node_iff] at hs
    obtain ⟨hsz, hl, hr⟩ := hs
    cases l with
    | leaf => exact ⟨rfl, hr⟩
    | node lv ls ll lr =>
      obtain ⟨ih1, ih2⟩ := ihl (by simp) hl
      constructor
      · rw [split_min, toList, ih1]
        rw [toList_balance_left, toList_mknode]
        simp
      · rw [split_min]
        exact sizeOk_balance_left _ (sizeOk_mknode _ _ _ ih2 hr)

theorem toList_erase_self (t : Node) (i : Nat)
    (hs : sizeOk t = true) (hi : i < size t) :
    toList (erase_self t i) = (toList t).take i ++ (toList t).drop (i + 1) := by
  induction t generalizing i with
  | leaf => simp [size] at hi
  | node v s l r ihl ihr =>
    rw [sizeOk_node_iff] at hs
    obtain ⟨hsz, hl, hr⟩ := hs
    have hlen : (toList l).length = size l := length_toList l hl
    rw [erase_self.eq_def]
    dsimp only
    by_cases hc : i < size l
    · rw [if_pos hc, toList_balance_left, toList_mknode, ihl i hl hc, toList]
      rw [take_app_le _ _ i (by omega), drop_app_le _ _ (i + 1) (by omega)]
      simp
    · rw [if_neg hc]
      by_cases hc2 : size l < i
      · obtain ⟨k, hk⟩ : ∃ k, i = size l + 1 + k := ⟨i - size l - 1, by omega⟩
        subst hk
        have hk2 : size l + 1 + k - size l - 1 = k := by omega
        rw [if_pos hc2, toList_balance_right, toList_mknode, hk2,
          ihr k hr (by have hi2 : size l + 1 + k < s := hi; omega), toList]
        rw [show size l + 1 + k + 1 = (toList l ++ [v]).length + (k + 1)
          by simp [hlen]; omega]
        rw [show size l + 1 + k = (toList l ++ [v]).length + k by simp [hlen]]
        rw [show toList l ++ v :: toList r = (toList l ++ [v]) ++ toList r
          by simp]
        rw [take_app_ge, drop_app_ge]
        simp
      · rw [if_neg hc2]
        have hieq : i = size l := by omega
        subst hieq
        have htk : (toList l ++ v :: toList r).take (size l) = toList l := by
          rw [take_app_le _ _ _ (by omega)]
          rw [← hlen, List.take_length]
        have hdr : (toList l ++ v :: toList r).drop (size l + 1) = toList r := by
          have : size l + 1 = (toList l ++ [v]).length + 0 := by simp [hlen]
          rw [this, show toList l ++ v :: toList r = (toList l ++ [v]) ++ toList r
            by simp, drop_app_ge]
          rfl
        cases l with
        | leaf =>
          cases r with
          | leaf => simp [toList, size]
          | node rv rs rl rr => simp [toList, htk, hdr, size]
        | node lv ls ll lr =>
          cases r with
          | leaf =>
            show toList (node lv ls ll lr) = _
            conv_rhs => rw [toList]
            rw [htk, hdr]
            simp [toList]
          | node rv rs rl rr =>
            obtain ⟨hsp1, hsp2⟩ := split_min_spec (node rv rs rl rr) (by simp) hr
            rw [toList, htk, hdr]
            show toList (balance_right (mknode (split_min (node rv rs rl rr)).1
              (node lv ls ll lr) (split_min (node rv rs rl rr)).2)) = _
            rw [toList_balance_right, toList_mknode, hsp1]

theorem sizeOk_erase_self (t : Node) (i : Nat) (hs : sizeOk t = true) :
    sizeOk (erase_self t i) = true := by
  induction t generalizing i with
  | leaf => rfl
  | node v s l r ihl ihr =>
    rw [sizeOk_node_iff] at hs
    obtain ⟨hsz, hl, hr⟩ := hs
    rw [erase_self.eq_def]
    dsimp only
    by_cases hc : i < size l
    · rw [if_pos hc]
      exact sizeOk_balance_left _ (sizeOk_mknode _ _ _ (ihl i hl) hr)
    · rw [if_neg hc]
      by_cases hc2 : size l < i
      · rw [if_pos hc2]
        exact sizeOk_balance_right _ (sizeOk_mknode _ _ _ hl (ihr _ hr))
      · rw [if_neg hc2]
        cases l with
        | leaf => cases r with
          | leaf => rfl
          | node rv rs rl rr => exact hr
        | node lv ls ll lr =>
          cases r with
          | leaf => exact hl
          | node rv rs rl rr =>
            obtain ⟨hsp1, hsp2⟩ := split_min_spec (node rv rs rl rr) (by simp) hr
            exact sizeOk_balance_right _ (sizeOk_mknode _ _ _ hl hsp2)

theorem size_erase_self (t : Node) (i : Nat)
    (hs : sizeOk t = true) (hi : i < size t) :
    size (erase_self t i) = size t - 1 := by
  have h1 := length_toList _ (sizeOk_erase_self t i hs)
  rw [toList_erase_self t i hs hi] at h1
  have h2 := length_toList t hs
  simp [List.length_append, List.length_take, List.length_drop] at h1
  omega

/-- Read the value stored at inorder index `i` (0 outside the tree). -/
def getVal : Node → Nat → Int
  | leaf, _ => 0
  | node v _ l r, i =>
    if i < size l then getVal l i
    else if i = size l then v
    else getVal r (i - size l - 1)

/-- Replace the value stored at inorder index `i`; the shape, the stored
sizes and every other value are untouched. -/
def setVal : Node → Nat → Int → Node
  | leaf, _, _ => leaf
  | node v s l r, i, x =>
    if i < size l then node v s (setVal l i x) r
    else if i = size l then node x s l r
    else node v s l (setVal r (i - size l - 1) x)

/-- Net effect of `exchange_nodes` on the represented sequence: the two
nodes trade places (each keeping its own value and taking the other slot's
stored size), so position `i` now shows the value formerly at `j` and vice
versa, with the shape and all stored sizes unchanged.  The pointer-level
statement sequence itself is embedded below as `exchange_nodes` on heaps. -/
def exchange_elements (t : Node) (i j : Nat) : Node :=
  setVal (setVal t i (getVal t j)) j (getVal t i)

/-- The tree with values erased: shape and stored size fields only. -/
def skel : Node → Node
  | leaf => leaf
  | node _ s l r => node 0 s (skel l) (skel r)

theorem size_setVal (t : Node) (i : Nat) (x : Int) :
    size (setVal t i x) = size t := by
  cases t with
  | leaf => rfl
  | node v s l r =>
    rw [setVal]
    split
    · rfl
    · split
      · rfl
      · rfl

theorem skel_setVal (t : Node) (i : Nat) (x : Int) :
    skel (setVal t i x) = skel t := by
  induction t generalizing i with
  | leaf => rfl
  | node v s l r ihl ihr =>
    rw [setVal]
    split
    · rw [skel, skel, ihl]
    · split
      · rfl
      · rw [skel, skel, ihr]

theorem size_skel (t : Node) : size (skel t) = size t := by
  cases t <;> rfl

theorem sizeOk_skel (t : Node) : sizeOk (skel t) = sizeOk t := by
  induction t with
  | leaf => rfl
  | node v s l r ihl ihr => rw [skel, sizeOk, sizeOk, size_skel, size_skel, ihl, ihr]

theorem balancedB_skel (t : Node) : balancedB (skel t) = balancedB t := by
  induction t with
  | leaf => rfl
  | node v s l r ihl ihr =>
    rw [skel, balancedB, balancedB, ihl, ihr, is_balanced, is_balanced,
      is_balanced, is_balanced, size_skel, size_skel]

theorem set_app_lt {α : Type} (xs ys : List α) (i : Nat) (a : α)
    (h : i < xs.length) : (xs ++ ys).set i a = xs.set i a ++ ys := by
  induction xs generalizing i with
  | nil => simp at h
  | cons b xs ih =>
    cases i with
    | zero => rfl
    | succ j => simp [List.set_cons_succ, ih j (by simpa using h)]

theorem set_app_ge {α : Type} (xs ys : List α) (k : Nat) (a : α) :
    (xs ++ ys).set (xs.length + k) a = xs ++ ys.set k a := by
  induction xs with
  | nil => simp
  | cons b xs ih => simp [Nat.succ_add, List.set_cons_succ, ih]

theorem getD_app_lt {α : Type} (xs ys : List α) (i : Nat) (d : α)
    (h : i < xs.length) : (xs ++ ys).getD i d = xs.getD i d := by
  induction xs generalizing i with
  | nil => simp at h
  | cons b xs ih =>
    cases i with
    | zero => rfl
    | succ j => simpa using ih j (by simpa using h)

theorem getD_app_ge {α : Type} (xs ys : List α) (k : Nat) (d : α) :
    (xs ++ ys).getD (xs.length + k) d = ys.getD k d := by
  induction xs with
  | nil => simp
  | cons b xs ih => simpa [Nat.succ_add] using ih

theorem getVal_eq_getD (t : Node) (i : Nat) (hs : sizeOk t = true) :
    getVal t i = (toList t).getD i 0 := by
  induction t generalizing i with
  | leaf => simp [getVal, toList]
  | node v s l r ihl ihr =>
    rw [sizeOk_node_iff] at hs
    obtain ⟨hsz, hl, hr⟩ := hs
    have hlen : (toList l).length = size l := length_toList l hl
    rw [getVal, toList]
    by_cases hc : i < size l
    · rw [if_pos hc, ihl i hl, getD_app_lt _ _ _ _ (by omega)]
    · rw [if_neg hc]
      by_cases hc2 : i = size l
      · subst hc2
        rw [if_pos rfl, show size l = (toList l).length + 0 by omega, getD_app_ge]
        rfl
      · obtain ⟨k, hk⟩ : ∃ k, i = size l + 1 + k := ⟨i - size l - 1, by omega⟩
        subst hk
        have hk2 : size l + 1 + k - size l - 1 = k := by omega
        rw [if_neg hc2, hk2, ihr k hr,
          show size l + 1 + k = (toList l ++ [v]).length + k by simp [hlen],
          show toList l ++ v :: toList r = (toList l ++ [v]) ++ toList r by simp,
          getD_app_ge]

theorem toList_setVal (t : Node) (i : Nat) (x : Int) (hs : sizeOk t = true) :
    toList (setVal t i x) = (toList t).set i x := by
  induction t generalizing i with
  | leaf => rfl
  | node v s l r ihl ihr =>
    rw [sizeOk_node_iff] at hs
    obtain ⟨hsz, hl, hr⟩ := hs
    have hlen : (toList l).length = size l := length_toList l hl
    rw [setVal]
    by_cases hc : i < size l
    · rw [if_pos hc, toList, toList, ihl i hl, set_app_lt _ _ _ _ (by omega)]
    · rw [if_neg hc]
      by_cases hc2 : i = size l
      · subst hc2
        rw [if_pos rfl, toList, toList,
          show size l = (toList l).length + 0 by omega, set_app_ge]
        rfl
      · obtain ⟨k, hk⟩ : ∃ k, i = size l + 1 + k := ⟨i - size l - 1, by omega⟩
        subst hk
        have hk2 : size l + 1 + k - size l - 1 = k := by omega
        rw [if_neg hc2, toList, toList, hk2, ihr k hr,
          show size l + 1 + k = (toList l ++ [v]).length + k by simp [hlen],
          show toList l ++ v :: toList r = (toList l ++ [v]) ++ toList r by simp,
          set_app_ge]
        simp

theorem sizeOk_setVal (t : Node) (i : Nat) (x : Int) (hs : sizeOk t = true) :
    sizeOk (setVal t i x) = true := by
  rw [← sizeOk_skel, skel_setVal, sizeOk_skel]
  exact hs

theorem size_exchange_elements (t : Node) (i j : Nat) :
    size (exchange_elements t i j) = size t := by
  rw [exchange_elements, size_setVal, size_setVal]

theorem sizeOk_exchange_elements (t : Node) (i j : Nat) (hs : sizeOk t = true) :
    sizeOk (exchange_elements t i j) = true := by
  rw [exchange_elements]
  exact sizeOk_setVal _ _ _ (sizeOk_setVal _ _ _ hs)

theorem skel_exchange_elements (t : Node) (i j : Nat) :
    skel (exchange_elements t i j) = skel t := by
  rw [exchange_elements, skel_setVal, skel_setVal]

theorem balancedB_exchange_elements (t : Node) (i j : Nat) :
    balancedB (exchange_elements t i j) = balancedB t := by
  rw [← balancedB_skel, skel_exchange_elements, balancedB_skel]

theorem toList_exchange_elements (t : Node) (i j : Nat) (hs : sizeOk t = true) :
    toList (exchange_elements t i j) =
      ((toList t).set i ((toList t).getD j 0)).set j ((toList t).getD i 0) := by
  rw [exchange_elements, toList_setVal _ _ _ (sizeOk_setVal _ _ _ hs),
    toList_setVal _ _ _ hs, getVal_eq_getD _ _ hs, getVal_eq_getD _ _ hs]

/-- One mutating operation of the public interface, with its position
argument(s) as inorder indices. -/
inductive Op where
  | ins : Nat → Int → Op
  | del : Nat → Op
  | exch : Nat → Nat → Op
deriving DecidableEq, Repr

def applyOp (t : Node) : Op → Node
  | Op.ins i v => insert_before_self t i v
  | Op.del i => erase_self t i
  | Op.exch i j => exchange_elements t i j

def applyOps : Node → List Op → Node
  | t, [] => t
  | t, op :: ops => applyOps (applyOp t op) ops

/-- The caller-contract precondition of each operation: positions must be
valid iterators (an element, or also `end()` for insert). -/
def opPre (t : Node) : Op → Prop
  | Op.ins i _ => i ≤ size t
  | Op.del i => i < size t
  | Op.exch i j => i < size t ∧ j < size t

def ValidFrom : Node → List Op → Prop
  | _, [] => True
  | t, op :: ops => opPre t op ∧ ValidFrom (applyOp t op) ops

def insCount : List Op → Nat
  | [] => 0
  | Op.ins _ _ :: ops => insCount ops + 1
  | Op.del _ :: ops => insCount ops
  | Op.exch _ _ :: ops => insCount ops

def delCount : List Op → Nat
  | [] => 0
  | Op.ins _ _ :: ops => delCount ops
  | Op.del _ :: ops => delCount ops + 1
  | Op.exch _ _ :: ops => delCount ops

theorem applyOps_size (ops : List Op) (t : Node)
    (hs : sizeOk t = true) (hv : ValidFrom t ops) :
    sizeOk (applyOps t ops) = true ∧
      size (applyOps t ops) + delCount ops = size t + insCount ops := by
  induction ops generalizing t with
  | nil => exact ⟨hs, rfl⟩
  | cons op ops ih =>
    have hv2 : opPre t op ∧ ValidFrom (applyOp t op) ops := hv
    cases op with
    | ins i v =>
      have hpre : i ≤ size t := hv2.1
      obtain ⟨h1, h2⟩ := ih (insert_before_self t i v)
        (sizeOk_insert_before_self t i v hs) hv2.2
      refine ⟨h1, ?_⟩
      have h3 := size_insert_before_self t i v hs hpre
      show size (applyOps (insert_before_self t i v) ops) + delCount ops =
        size t + (insCount ops + 1)
      omega
    | del i =>
      have hpre : i < size t := hv2.1
      obtain ⟨h1, h2⟩ := ih (erase_self t i) (sizeOk_erase_self t i hs) hv2.2
      refine ⟨h1, ?_⟩
      have h3 := size_erase_self t i hs hpre
      show size (applyOps (erase_self t i) ops) + (delCount ops + 1) =
        size t + insCount ops
      omega
    | exch i j =>
      obtain ⟨h1, h2⟩ := ih (exchange_elements t i j)
        (sizeOk_exchange_elements t i j hs) hv2.2
      refine ⟨h1, ?_⟩
      have h3 := size_exchange_elements t i j
      show size (applyOps (exchange_elements t i j) ops) + delCount ops =
        size t + insCount ops
      omega

/-- The caller-established partition precondition: along the inorder
sequence, once the comparator stops being negative it never becomes negative
again, and once it is positive it stays positive — i.e. the sequence splits
into a `(<0)*` run, a `(==0)*` run and a `(>0)*` run. -/
def Partitioned (cmp : Int → Int) (xs : List Int) : Prop :=
  List.Pairwise (fun x y => (0 ≤ cmp x → 0 ≤ cmp y) ∧ (0 < cmp x → 0 < cmp y)) xs

theorem findIdx_app_none {α : Type} (p : α → Bool) (xs ys : List α)
    (h : ∀ x ∈ xs, p x = false) :
    List.findIdx p (xs ++ ys) = xs.length + List.findIdx p ys := by
  induction xs with
  | nil => simp
  | cons a xs ih =>
    have ha : p a = false := h a (by simp)
    rw [List.cons_append, List.findIdx_cons, ha]
    simp only [cond_false]
    rw [ih fun x hx => h x (by simp [hx])]
    simp only [List.length_cons]
    omega

theorem findIdx_le_len {α : Type} (p : α → Bool) (xs : List α) :
    List.findIdx p xs ≤ xs.length := by
  induction xs with
  | nil => simp
  | cons a xs ih =>
    rw [List.findIdx_cons]
    cases hpa : p a
    · simp only [cond_false, List.length_cons]
      omega
    · simp

theorem findIdx_app_found {α : Type} (p : α → Bool) (xs ys : List α)
    (h : List.findIdx p xs < xs.length) :
    List.findIdx p (xs ++ ys) = List.findIdx p xs := by
  induction xs with
  | nil => simp at h
  | cons a xs ih =>
    rw [List.cons_append, List.findIdx_cons, List.findIdx_cons]
    cases hpa : p a
    · simp only [cond_false]
      rw [List.findIdx_cons, hpa] at h
      simp only [cond_false, List.length_cons] at h
      rw [ih (by omega)]
    · simp

theorem findIdx_len_all_false {α : Type} (p : α → Bool) (xs : List α)
    (h : List.findIdx p xs = xs.length) : ∀ x ∈ xs, p x = false := by
  induction xs with
  | nil => simp
  | cons a xs ih =>
    rw [List.findIdx_cons] at h
    cases hpa : p a
    · rw [hpa] at h
      simp only [cond_false, List.length_cons] at h
      have h2 := ih (by omega)
      intro x hx
      rcases List.mem_cons.mp hx with hx | hx
      · subst hx
        exact hpa
      · exact h2 x hx
    · rw [hpa] at h
      simp only [cond_true, List.length_cons] at h
      intro x hx
      exact absurd h (by omega)

theorem lower_bound_node_eq (t : Node) (cmp : Int → Int)
    (hs : sizeOk t = true) (hp : Partitioned cmp (toList t)) :
    lower_bound_node t cmp = (toList t).findIdx (fun x => decide (0 ≤ cmp x)) := by
  induction t with
  | leaf => simp [lower_bound_node, toList]
  | node v s l r ihl ihr =>
    rw [sizeOk_node_iff] at hs
    obtain ⟨hsz, hl, hr⟩ := hs
    have hlen := length_toList l hl
    rw [Partitioned, toList, List.pairwise_append] at hp
    obtain ⟨hpl, hpcons, hcross⟩ := hp
    have hpv := (List.pairwise_cons.mp hpcons).1
    have hpr := (List.pairwise_cons.mp hpcons).2
    rw [toList, lower_bound_node]
    by_cases hc : cmp v < 0
    · rw [if_pos hc]
      have hall : ∀ x ∈ toList l, (fun x => decide (0 ≤ cmp x)) x = false := by
        intro x hx
        have h2 := (hcross x hx v (by simp)).1
        simp only [decide_eq_false_iff_not]
        intro h0
        exact absurd (h2 h0) (by omega)
      rw [findIdx_app_none _ _ _ hall, List.findIdx_cons]
      have hv2 : (decide (0 ≤ cmp v)) = false := by
        simp only [decide_eq_false_iff_not]
        omega
      rw [hv2]
      simp only [cond_false]
      rw [ihr hr hpr, hlen]
      omega
    · rw [if_neg hc]
      rw [ihl hl hpl]
      by_cases hf :
          (toList l).findIdx (fun x => decide (0 ≤ cmp x)) < (toList l).length
      · rw [findIdx_app_found _ _ _ hf]
      · have heq :
            (toList l).findIdx (fun x => decide (0 ≤ cmp x)) = (toList l).length := by
          have h2 := findIdx_le_len (fun x => decide (0 ≤ cmp x)) (toList l)
          omega
        have hall := findIdx_len_all_false _ _ heq
        rw [findIdx_app_none _ _ _ hall, List.findIdx_cons]
        have hv2 : (decide (0 ≤ cmp v)) = true := by
          simp only [decide_eq_true_eq]
          omega
        rw [hv2]
        simp [heq]

theorem upper_bound_node_eq (t : Node) (cmp : Int → Int)
    (hs : sizeOk t = true) (hp : Partitioned cmp (toList t)) :
    upper_bound_node t cmp = (toList t).findIdx (fun x => decide (0 < cmp x)) := by
  induction t with
  | leaf => simp [upper_bound_node, toList]
  | node v s l r ihl ihr =>
    rw [sizeOk_node_iff] at hs
    obtain ⟨hsz, hl, hr⟩ := hs
    have hlen := length_toList l hl
    rw [Partitioned, toList, List.pairwise_append] at hp
    obtain ⟨hpl, hpcons, hcross⟩ := hp
    have hpv := (List.pairwise_cons.mp hpcons).1
    have hpr := (List.pairwise_cons.mp hpcons).2
    rw [toList, upper_bound_node]
    by_cases hc : cmp v ≤ 0
    · rw [if_pos hc]
      have hall : ∀ x ∈ toList l, (fun x => decide (0 < cmp x)) x = false := by
        intro x hx
        have h2 := (hcross x hx v (by simp)).2
        simp only [decide_eq_false_iff_not]
        intro h0
        exact absurd (h2 h0) (by omega)
      rw [findIdx_app_none _ _ _ hall, List.findIdx_cons]
      have hv2 : (decide (0 < cmp v)) = false := by
        simp only [decide_eq_false_iff_not]
        omega
      rw [hv2]
      simp only [cond_false]
      rw [ihr hr hpr, hlen]
      omega
    · rw [if_neg hc]
      rw [ihl hl hpl]
      by_cases hf :
          (toList l).findIdx (fun x => decide (0 < cmp x)) < (toList l).length
      · rw [findIdx_app_found _ _ _ hf]
      · have heq :
            (toList l).findIdx (fun x => decide (0 < cmp x)) = (toList l).length := by
          have h2 := findIdx_le_len (fun x => decide (0 < cmp x)) (toList l)
          omega
        have hall := findIdx_len_all_false _ _ heq
        rw [findIdx_app_none _ _ _ hall, List.findIdx_cons]
        have hv2 : (decide (0 < cmp v)) = true := by
          simp only [decide_eq_true_eq]
          omega
        rw [hv2]
        simp [heq]

/-- A direction from a node down to a child. -/
inductive Dir where
  | L : Dir
  | R : Dir
deriving DecidableEq, Repr

/-- Follow a root-to-node direction list down the tree. -/
def subtreeAt : Node → List Dir → Option Node
  | t, [] => some t
  | leaf, _ :: _ => none
  | node _ _ l _, Dir.L :: p => subtreeAt l p
  | node _ _ _ r, Dir.R :: p => subtreeAt r p

/-
An iterator is `Option (List Dir)`: `some p` is the node reached from the
root by the reversed path `p` (stored node-to-root, so `p.head` is the side
on which the node hangs off its parent and `parent_` is `p.tail`), and
`none` is the sentinel.  The sentinel's fields, per the `tree()` constructor
and all later writes, are `parent_ = itself`, `left_ = root`, `right_ = null`
(no operation ever assigns the sentinel's `right_`, because the root is
always its parent's *left* child).
-/

/-- Node-to-root path of the leftmost node of a subtree (`while (p->left_)
p = p->left_`): all `L` steps. -/
def leftSpinePath : Node → List Dir
  | leaf => []
  | node _ _ leaf _ => []
  | node _ _ (node lv ls ll lr) _ => leftSpinePath (node lv ls ll lr) ++ [Dir.L]

/-- Node-to-root path of the rightmost node of a subtree. -/
def rightSpinePath : Node → List Dir
  | leaf => []
  | node _ _ _ leaf => []
  | node _ _ _ (node rv rs rl rr) => rightSpinePath (node rv rs rl rr) ++ [Dir.R]

/-- The `inorder_successor` walk-up: climb while the node is its parent's
right child (`p == p->parent_->right_`), then step to the parent once more;
reaching the root (empty path) while still climbing means the loop guard
`!is_sentinel(p->parent_)` failed and the result is the sentinel. -/
def climbR (p : List Dir) : Option (List Dir) :=
  match p.dropWhile (fun d => d == Dir.R) with
  | [] => none
  | _ :: q => some q

/-- The `inorder_predecessor` walk-up, mirror image. -/
def climbL (p : List Dir) : Option (List Dir) :=
  match p.dropWhile (fun d => d == Dir.L) with
  | [] => none
  | _ :: q => some q

/-- `inorder_successor` on iterators.  On the sentinel (`none`): its
`right_` is null and its parent is itself, so both loops exit at once and
the sentinel is returned.  On a real node: descend to the leftmost node of
the right subtree if there is one, otherwise walk up with `climbR`. -/
def inorder_successor (root : Node) : Option (List Dir) → Option (List Dir)
  | none => none
  | some p =>
    match subtreeAt root p.reverse with
    | none => none
    | some leaf => none
    | some (node _ _ _ leaf) => climbR p
    | some (node _ _ _ (node rv rs rl rr)) =>
      some (leftSpinePath (node rv rs rl rr) ++ Dir.R :: p)

/-- `inorder_predecessor` on iterators.  On the sentinel (`none`): its
`left_` is the root, so on a non-empty tree the C++ descends to the
rightmost real node; on the empty tree the walk-up returns the sentinel. -/
def inorder_predecessor (root : Node) : Option (List Dir) → Option (List Dir)
  | none =>
    match root with
    | leaf => none
    | node v s l r => some (rightSpinePath (node v s l r))
  | some p =>
    match subtreeAt root p.reverse with
    | none => none
    | some leaf => none
    | some (node _ _ leaf _) => climbL p
    | some (node _ _ (node lv ls ll lr) _) =>
      some (rightSpinePath (node lv ls ll lr) ++ Dir.L :: p)

/-- `tree::begin()`: descend left from the sentinel; on the empty tree this
stays at the sentinel. -/
def beginIter : Node → Option (List Dir)
  | leaf => none
  | node v s l r => some (leftSpinePath (node v s l r))

/-- Dereference an iterator (`operator*`); 0 when invalid. -/
def valueAt (root : Node) (p : List Dir) : Int :=
  match subtreeAt root p.reverse with
  | some (node v _ _ _) => v
  | _ => 0

/-- The node-to-root path of the node with inorder index `i`. -/
def pathOfIdx : Node → Nat → List Dir
  | leaf, _ => []
  | node _ _ l r, i =>
    if i < size l then pathOfIdx l i ++ [Dir.L]
    else if i = size l then []
    else pathOfIdx r (i - size l - 1) ++ [Dir.R]

/-- Forward iteration: repeatedly dereference and `++` until the sentinel. -/
def fwdAux (root : Node) : Nat → Option (List Dir) → List Int
  | 0, _ => []
  | _ + 1, none => []
  | fuel + 1, some p =>
    valueAt root p :: fwdAux root fuel (inorder_successor root (some p))

/-- The sequence visited iterating from `begin()` to `end()`. -/
def fwdTrav (root : Node) : List Int := fwdAux root (size root) (beginIter root)

/-- Backward iteration from an iterator: repeatedly `--` then dereference,
until `--` hits the sentinel. -/
def bwdAux (root : Node) : Nat → Option (List Dir) → List Int
  | 0, _ => []
  | fuel + 1, it =>
    match inorder_predecessor root it with
    | none => []
    | some p => valueAt root p :: bwdAux root fuel (some p)

/-- The sequence visited decrementing from `end()` back to `begin()`. -/
def bwdTrav (root : Node) : List Int := bwdAux root (size root) none

theorem dropWhile_app {α : Type} (pr : α → Bool) (xs ys : List α) :
    (xs ++ ys).dropWhile pr =
      match xs.dropWhile pr with
      | [] => ys.dropWhile pr
      | a :: q => a :: (q ++ ys) := by
  induction xs with
  | nil => rfl
  | cons a xs ih =>
    rw [List.cons_append, List.dropWhile_cons, List.dropWhile_cons]
    by_cases hpa : pr a = true
    · rw [if_pos hpa, if_pos hpa, ih]
    · rw [if_neg hpa, if_neg hpa]

theorem size_pos_of_sizeOk (v : Int) (s : Nat) (l r : Node)
    (h : sizeOk (node v s l r) = true) : 0 < size (node v s l r) := by
  rw [sizeOk_node_iff] at h
  simp [size, h.1]

theorem leftSpinePath_all_L (t : Node) : ∀ d ∈ leftSpinePath t, d = Dir.L := by
  induction t with
  | leaf => simp [leftSpinePath]
  | node v s l r ihl ihr =>
    cases l with
    | leaf => simp [leftSpinePath]
    | node lv ls ll lr =>
      rw [leftSpinePath]
      intro d hd
      rcases List.mem_append.mp hd with h | h
      · exact ihl d h
      · simpa using h

theorem subtreeAt_leftSpine (t : Node) (h : t ≠ leaf) :
    ∃ v s r2, subtreeAt t (leftSpinePath t).reverse = some (node v s leaf r2) := by
  induction t with
  | leaf => exact absurd rfl h
  | node v s l r ihl ihr =>
    cases l with
    | leaf => exact ⟨v, s, r, rfl⟩
    | node lv ls ll lr =>
      obtain ⟨v2, s2, r2, ih⟩ := ihl (by simp)
      refine ⟨v2, s2, r2, ?_⟩
      rw [leftSpinePath, List.reverse_append]
      simp only [List.reverse_cons, List.reverse_nil, List.nil_append,
        List.singleton_append]
      exact ih

theorem pathOfIdx_zero (t : Node) (hs : sizeOk t = true) (h : t ≠ leaf) :
    pathOfIdx t 0 = leftSpinePath t := by
  induction t with
  | leaf => exact absurd rfl h
  | node v s l r ihl ihr =>
    rw [sizeOk_node_iff] at hs
    obtain ⟨hsz, hl, hr⟩ := hs
    cases l with
    | leaf => simp [pathOfIdx, leftSpinePath, size]
    | node lv ls ll lr =>
      have hpos := size_pos_of_sizeOk lv ls ll lr hl
      rw [pathOfIdx, if_pos hpos, leftSpinePath, ihl hl (by simp)]

theorem pathOfIdx_last (t : Node) (hs : sizeOk t = true) (h : t ≠ leaf) :
    pathOfIdx t (size t - 1) = rightSpinePath t := by
  induction t with
  | leaf => exact absurd rfl h
  | node v s l r ihl ihr =>
    rw [sizeOk_node_iff] at hs
    obtain ⟨hsz, hl, hr⟩ := hs
    cases r with
    | leaf =>
      have h1 : size (node v s l leaf) - 1 = size l := by
        simp [size, hsz]
      rw [h1, pathOfIdx, if_neg (by omega), if_pos rfl, rightSpinePath]
    | node rv rs rl rr =>
      have hpos := size_pos_of_sizeOk rv rs rl rr hr
      have h1 : size (node v s l (node rv rs rl rr)) - 1 =
          size l + 1 + (size (node rv rs rl rr) - 1) := by
        simp only [size] at hsz hpos ⊢
        omega
      rw [h1, pathOfIdx, if_neg (by omega), if_neg (by omega), rightSpinePath,
        show size l + 1 + (size (node rv rs rl rr) - 1) - size l - 1 =
          size (node rv rs rl rr) - 1 by omega,
        ihr hr (by simp)]

theorem drop_eq_getD_cons {α : Type} (d : α) (xs : List α) (i : Nat)
    (h : i < xs.length) : xs.drop i = xs.getD i d :: xs.drop (i + 1) := by
  induction xs generalizing i with
  | nil => simp at h
  | cons a xs ih =>
    cases i with
    | zero => simp
    | succ j => simpa using ih j (by simpa using h)

theorem take_succ_getD {α : Type} (d : α) (xs : List α) (i : Nat)
    (h : i < xs.length) : xs.take (i + 1) = xs.take i ++ [xs.getD i d] := by
  induction xs generalizing i with
  | nil => simp at h
  | cons a xs ih =>
    cases i with
    | zero => simp
    | succ j => simpa using ih j (by simpa using h)

theorem subtreeAt_pathOfIdx (t : Node) (i : Nat) (hs : sizeOk t = true)
    (hi : i < size t) :
    ∃ b c d2, subtreeAt t (pathOfIdx t i).reverse =
      some (node ((toList t).getD i 0) b c d2) := by
  induction t generalizing i with
  | leaf => simp [size] at hi
  | node v s l r ihl ihr =>
    rw [sizeOk_node_iff] at hs
    obtain ⟨hsz, hl, hr⟩ := hs
    have hlen := length_toList l hl
    rw [pathOfIdx]
    by_cases hc : i < size l
    · rw [if_pos hc]
      obtain ⟨b, c, d2, ih⟩ := ihl i hl hc
      refine ⟨b, c, d2, ?_⟩
      rw [List.reverse_append]
      simp only [List.reverse_cons, List.reverse_nil, List.nil_append,
        List.singleton_append]
      rw [toList, getD_app_lt _ _ _ _ (by omega)]
      exact ih
    · by_cases hc2 : i = size l
      · subst hc2
        rw [if_neg hc, if_pos rfl]
        refine ⟨s, l, r, ?_⟩
        rw [toList, show size l = (toList l).length + 0 by omega, getD_app_ge]
        rfl
      · obtain ⟨k, hk⟩ : ∃ k, i = size l + 1 + k := ⟨i - size l - 1, by omega⟩
        subst hk
        have hk2 : size l + 1 + k - size l - 1 = k := by omega
        have hik : k < size r := by
          have h2 : size l + 1 + k < s := hi
          omega
        rw [if_neg hc, if_neg hc2, hk2]
        obtain ⟨b, c, d2, ih⟩ := ihr k hr hik
        refine ⟨b, c, d2, ?_⟩
        rw [List.reverse_append]
        simp only [List.reverse_cons, List.reverse_nil, List.nil_append,
          List.singleton_append]
        rw [toList, show size l + 1 + k = (toList l ++ [v]).length + k
            by simp [hlen],
          show toList l ++ v :: toList r = (toList l ++ [v]) ++ toList r by simp,
          getD_app_ge]
        exact ih

theorem valueAt_pathOfIdx (t : Node) (i : Nat) (hs : sizeOk t = true)
    (hi : i < size t) : valueAt t (pathOfIdx t i) = (toList t).getD i 0 := by
  obtain ⟨b, c, d2, h⟩ := subtreeAt_pathOfIdx t i hs hi
  rw [valueAt, h]

theorem succ_append_L (v : Int) (s : Nat) (l r : Node) (p : List Dir)
    (a : Int) (b : Nat) (c d : Node)
    (h : subtreeAt l p.reverse = some (node a b c d)) :
    inorder_successor (node v s l r) (some (p ++ [Dir.L])) =
      match inorder_successor l (some p) with
      | some q => some (q ++ [Dir.L])
      | none => some [] := by
  have hrev : (p ++ [Dir.L]).reverse = Dir.L :: p.reverse := by
    rw [List.reverse_append]
    rfl
  rw [inorder_successor, inorder_successor, hrev,
    show subtreeAt (node v s l r) (Dir.L :: p.reverse) = subtreeAt l p.reverse
      from rfl, h]
  cases d with
  | leaf =>
    rw [climbR, climbR, dropWhile_app]
    cases hdw : p.dropWhile (fun d => d == Dir.R) with
    | nil => rfl
    | cons d2 q => rfl
  | node rv2 rs2 rl2 rr2 => simp

theorem succ_append_R (v : Int) (s : Nat) (l r : Node) (p : List Dir)
    (a : Int) (b : Nat) (c d : Node)
    (h : subtreeAt r p.reverse = some (node a b c d)) :
    inorder_successor (node v s l r) (some (p ++ [Dir.R])) =
      match inorder_successor r (some p) with
      | some q => some (q ++ [Dir.R])
      | none => none := by
  have hrev : (p ++ [Dir.R]).reverse = Dir.R :: p.reverse := by
    rw [List.reverse_append]
    rfl
  rw [inorder_successor, inorder_successor, hrev,
    show subtreeAt (node v s l r) (Dir.R :: p.reverse) = subtreeAt r p.reverse
      from rfl, h]
  cases d with
  | leaf =>
    rw [climbR, climbR, dropWhile_app]
    cases hdw : p.dropWhile (fun d => d == Dir.R) with
    | nil => rfl
    | cons d2 q => rfl
  | node rv2 rs2 rl2 rr2 => simp

theorem pred_append_L (v : Int) (s : Nat) (l r : Node) (p : List Dir)
    (a : Int) (b : Nat) (c d : Node)
    (h : subtreeAt l p.reverse = some (node a b c d)) :
    inorder_predecessor (node v s l r) (some (p ++ [Dir.L])) =
      match inorder_predecessor l (some p) with
      | some q => some (q ++ [Dir.L])
      | none => none := by
  have hrev : (p ++ [Dir.L]).reverse = Dir.L :: p.reverse := by
    rw [List.reverse_append]
    rfl
  rw [inorder_predecessor, inorder_predecessor, hrev,
    show subtreeAt (node v s l r) (Dir.L :: p.reverse) = subtreeAt l p.reverse
      from rfl, h]
  cases c with
  | leaf =>
    rw [climbL, climbL, dropWhile_app]
    cases hdw : p.dropWhile (fun d => d == Dir.L) with
    | nil => rfl
    | cons d2 q => rfl
  | node lv2 ls2 ll2 lr2 => simp

theorem pred_append_R (v : Int) (s : Nat) (l r : Node) (p : List Dir)
    (a : Int) (b : Nat) (c d : Node)
    (h : subtreeAt r p.reverse = some (node a b c d)) :
    inorder_predecessor (node v s l r) (some (p ++ [Dir.R])) =
      match inorder_predecessor r (some p) with
      | some q => some (q ++ [Dir.R])
      | none => some [] := by
  have hrev : (p ++ [Dir.R]).reverse = Dir.R :: p.reverse := by
    rw [List.reverse_append]
    rfl
  rw [inorder_predecessor, inorder_predecessor, hrev,
    show subtreeAt (node v s l r) (Dir.R :: p.reverse) = subtreeAt r p.reverse
      from rfl, h]
  cases c with
  | leaf =>
    rw [climbL, climbL, dropWhile_app]
    cases hdw : p.dropWhile (fun d => d == Dir.L) with
    | nil => rfl
    | cons d2 q => rfl
  | node lv2 ls2 ll2 lr2 => simp

theorem succ_pathOfIdx (t : Node) (i : Nat) (hs : sizeOk t = true)
    (hi : i < size t) :
    inorder_successor t (some (pathOfIdx t i)) =
      if i + 1 = size t then none else some (pathOfIdx t (i + 1)) := by
  induction t generalizing i with
  | leaf => simp [size] at hi
  | node v s l r ihl ihr =>
    rw [sizeOk_node_iff] at hs
    obtain ⟨hsz, hl, hr⟩ := hs
    have hi2 : i < s := hi
    rw [pathOfIdx]
    by_cases hc : i < size l
    · rw [if_pos hc]
      obtain ⟨b, c, d2, hsub⟩ := subtreeAt_pathOfIdx l i hl hc
      rw [succ_append_L v s l r _ _ _ _ _ hsub, ihl i hl hc]
      by_cases hc2 : i + 1 = size l
      · rw [if_pos hc2]
        have hlt : ¬ (i + 1 = size (node v s l r)) :=
          show ¬ (i + 1 = s) by omega
        rw [if_neg hlt, pathOfIdx, if_neg (by omega), if_pos (by omega)]
      · rw [if_neg hc2]
        have hlt : ¬ (i + 1 = size (node v s l r)) :=
          show ¬ (i + 1 = s) by omega
        rw [if_neg hlt, pathOfIdx, if_pos (by omega)]
    · by_cases hc2 : i = size l
      · subst hc2
        rw [if_neg hc, if_pos rfl, inorder_successor]
        cases r with
        | leaf =>
          have hsz2 : s = size l + 0 + 1 := hsz
          have heq : size l + 1 = size (node v s l leaf) :=
            show size l + 1 = s by omega
          rw [if_pos heq]
          rfl
        | node rv rs rl rr =>
          have hpos := size_pos_of_sizeOk rv rs rl rr hr
          have hne : ¬ (size l + 1 = size (node v s l (node rv rs rl rr))) :=
            show ¬ (size l + 1 = s) by omega
          rw [if_neg hne, pathOfIdx, if_neg (by omega), if_neg (by omega),
            show size l + 1 - size l - 1 = 0 by omega,
            pathOfIdx_zero (node rv rs rl rr) hr (by simp)]
          rfl
      · obtain ⟨k, hk⟩ : ∃ k, i = size l + 1 + k := ⟨i - size l - 1, by omega⟩
        subst hk
        have hk2 : size l + 1 + k - size l - 1 = k := by omega
        have hik : k < size r := by omega
        rw [if_neg hc, if_neg hc2, hk2]
        obtain ⟨b, c, d2, hsub⟩ := subtreeAt_pathOfIdx r k hr hik
        rw [succ_append_R v s l r _ _ _ _ _ hsub, ihr k hr hik]
        by_cases hc3 : k + 1 = size r
        · rw [if_pos hc3]
          have heq : size l + 1 + k + 1 = size (node v s l r) :=
            show size l + 1 + k + 1 = s by omega
          rw [if_pos heq]
        · rw [if_neg hc3]
          have hne : ¬ (size l + 1 + k + 1 = size (node v s l r)) :=
            show ¬ (size l + 1 + k + 1 = s) by omega
          rw [if_neg hne, pathOfIdx, if_neg (by omega), if_neg (by omega),
            show size l + 1 + k + 1 - size l - 1 = k + 1 by omega]

theorem pred_pathOfIdx (t : Node) (i : Nat) (hs : sizeOk t = true)
    (hi : i < size t) :
    inorder_predecessor t (some (pathOfIdx t i)) =
      if i = 0 then none else some (pathOfIdx t (i - 1)) := by
  induction t generalizing i with
  | leaf => simp [size] at hi
  | node v s l r ihl ihr =>
    rw [sizeOk_node_iff] at hs
    obtain ⟨hsz, hl, hr⟩ := hs
    have hi2 : i < s := hi
    rw [pathOfIdx]
    by_cases hc : i < size l
    · rw [if_pos hc]
      obtain ⟨b, c, d2, hsub⟩ := subtreeAt_pathOfIdx l i hl hc
      rw [pred_append_L v s l r _ _ _ _ _ hsub, ihl i hl hc]
      by_cases hc2 : i = 0
      · rw [if_pos hc2, if_pos hc2]
      · rw [if_neg hc2, if_neg hc2, pathOfIdx, if_pos (by omega)]
    · by_cases hc2 : i = size l
      · subst hc2
        rw [if_neg hc, if_pos rfl, inorder_predecessor]
        cases l with
        | leaf =>
          rw [if_pos (show size leaf = 0 from rfl)]
          rfl
        | node lv ls ll lr =>
          have hpos := size_pos_of_sizeOk lv ls ll lr hl
          rw [if_neg (by omega), pathOfIdx, if_pos (by omega),
            pathOfIdx_last (node lv ls ll lr) hl (by simp)]
          rfl
      · obtain ⟨k, hk⟩ : ∃ k, i = size l + 1 + k := ⟨i - size l - 1, by omega⟩
        subst hk
        have hk2 : size l + 1 + k - size l - 1 = k := by omega
        have hik : k < size r := by omega
        rw [if_neg hc, if_neg hc2, hk2]
        obtain ⟨b, c, d2, hsub⟩ := subtreeAt_pathOfIdx r k hr hik
        rw [pred_append_R v s l r _ _ _ _ _ hsub, ihr k hr hik]
        by_cases hc3 : k = 0
        · subst hc3
          rw [if_pos rfl, if_neg (by omega : ¬ (size l + 1 + 0 = 0)), pathOfIdx,
            show size l + 1 + 0 - 1 = size l by omega, if_neg (by omega),
            if_pos rfl]
        · rw [if_neg hc3, if_neg (by omega : ¬ (size l + 1 + k = 0)), pathOfIdx,
            show size l + 1 + k - 1 = size l + 1 + (k - 1) by omega,
            if_neg (by omega), if_neg (by omega),
            show size l + 1 + (k - 1) - size l - 1 = k - 1 by omega]

theorem pred_none_eq (t : Node) (hs : sizeOk t = true) :
    inorder_predecessor t none =
      if size t = 0 then none else some (pathOfIdx t (size t - 1)) := by
  cases t with
  | leaf => rfl
  | node v s l r =>
    have hpos := size_pos_of_sizeOk v s l r hs
    rw [inorder_predecessor, if_neg (by omega),
      pathOfIdx_last (node v s l r) hs (by simp)]

theorem dropWhile_all {α : Type} (pr : α → Bool) (xs : List α)
    (h : ∀ x ∈ xs, pr x = true) : xs.dropWhile pr = [] := by
  induction xs with
  | nil => rfl
  | cons a xs ih =>
    rw [List.dropWhile_cons, if_pos (h a (by simp))]
    exact ih fun x hx => h x (by simp [hx])

theorem pred_begin (t : Node) : inorder_predecessor t (beginIter t) = none := by
  cases t with
  | leaf => rfl
  | node v s l r =>
    rw [beginIter, inorder_predecessor]
    obtain ⟨v2, s2, r2, hsub⟩ := subtreeAt_leftSpine (node v s l r) (by simp)
    rw [hsub, climbL,
      dropWhile_all _ _ fun d hd => by rw [leftSpinePath_all_L _ d hd]; rfl]

theorem fwdAux_spec (t : Node) (hs : sizeOk t = true) :
    ∀ (fuel i : Nat), i < size t → size t = i + fuel →
      fwdAux t fuel (some (pathOfIdx t i)) = (toList t).drop i := by
  intro fuel
  induction fuel with
  | zero =>
    intro i hi hf
    omega
  | succ fuel ih =>
    intro i hi hf
    have hlen := length_toList t hs
    rw [fwdAux, valueAt_pathOfIdx t i hs hi, succ_pathOfIdx t i hs hi]
    by_cases hc : i + 1 = size t
    · have hf0 : fuel = 0 := by omega
      subst hf0
      rw [if_pos hc, drop_eq_getD_cons 0 (toList t) i (by omega),
        show i + 1 = (toList t).length by omega, List.drop_length]
      rfl
    · rw [if_neg hc, ih (i + 1) (by omega) (by omega),
        drop_eq_getD_cons 0 (toList t) i (by omega)]

theorem fwdTrav_eq (t : Node) (hs : sizeOk t = true) : fwdTrav t = toList t := by
  cases t with
  | leaf => rfl
  | node v s l r =>
    have hpos := size_pos_of_sizeOk v s l r hs
    rw [fwdTrav, beginIter, ← pathOfIdx_zero (node v s l r) hs (by simp),
      fwdAux_spec (node v s l r) hs (size (node v s l r)) 0 hpos (by omega),
      List.drop_zero]

theorem bwdAux_spec (t : Node) (hs : sizeOk t = true) :
    ∀ (i : Nat), i < size t →
      bwdAux t i (some (pathOfIdx t i)) = ((toList t).take i).reverse := by
  intro i
  induction i with
  | zero =>
    intro hi
    rfl
  | succ i ih =>
    intro hi
    rw [bwdAux, pred_pathOfIdx t (i + 1) hs hi, if_neg (by omega),
      show i + 1 - 1 = i by omega]
    show valueAt t (pathOfIdx t i) :: bwdAux t i (some (pathOfIdx t i)) = _
    rw [valueAt_pathOfIdx t i hs (by omega), ih (by omega),
      take_succ_getD 0 (toList t) i (by rw [length_toList t hs]; omega),
      List.reverse_append]
    rfl

theorem bwdTrav_eq (t : Node) (hs : sizeOk t = true) :
    bwdTrav t = (toList t).reverse := by
  cases t with
  | leaf => rfl
  | node v s l r =>
    have hpos := size_pos_of_sizeOk v s l r hs
    have hlen := length_toList _ hs
    obtain ⟨n, hn⟩ : ∃ n, size (node v s l r) = n + 1 :=
      ⟨size (node v s l r) - 1, by omega⟩
    rw [bwdTrav, hn, bwdAux, pred_none_eq _ hs, if_neg (by omega), hn,
      show n + 1 - 1 = n by omega]
    show valueAt (node v s l r) (pathOfIdx (node v s l r) n) ::
      bwdAux (node v s l r) n (some (pathOfIdx (node v s l r) n)) = _
    rw [valueAt_pathOfIdx (node v s l r) n hs (by omega),
      bwdAux_spec (node v s l r) hs n (by omega)]
    have ht : toList (node v s l r) =
        (toList (node v s l r)).take n ++ [(toList (node v s l r)).getD n 0] := by
      conv_lhs => rw [← List.take_length (toList (node v s l r))]
      rw [show (toList (node v s l r)).length = n + 1 by omega,
        take_succ_getD 0 _ n (by omega)]
    conv_rhs => rw [ht]
    rw [List.reverse_append]
    rfl

/-- One C++ node object: `value_`, `size_`, `left_`, `right_`, `parent_`.
Pointers are addresses; null is `none`.  `parent_` is always set (the
sentinel is self-parented). -/
@[ext]
structure NodeRec where
  value : Int
  size : Nat
  left : Option Nat
  right : Option Nat
  parent : Nat
deriving DecidableEq, Repr

/-- The store of node objects. -/
abbrev Heap : Type := Nat → NodeRec

def setSizeH (h : Heap) (a : Nat) (x : Nat) : Heap :=
  fun b => if b = a then { h b with size := x } else h b

def setLeftH (h : Heap) (a : Nat) (x : Option Nat) : Heap :=
  fun b => if b = a then { h b with left := x } else h b

def setRightH (h : Heap) (a : Nat) (x : Option Nat) : Heap :=
  fun b => if b = a then { h b with right := x } else h b

def setParentH (h : Heap) (a : Nat) (x : Nat) : Heap :=
  fun b => if b = a then { h b with parent := x } else h b

/-- Which slot of `a`'s parent the reference `owner(a)` designates:
`p->parent_->left_ == p ? p->parent_->left_ : p->parent_->right_`. -/
def ownerIsLeft (h : Heap) (a : Nat) : Bool := (h (h a).parent).left == some a

/-- Assign through a bound owner reference. -/
def writeSlot (h : Heap) (par : Nat) (isLeft : Bool) (x : Option Nat) : Heap :=
  if isLeft then setLeftH h par x else setRightH h par x

/-- `if (x) { x->parent_ = y; }` -/
def fixParent (h : Heap) (c : Option Nat) (x : Nat) : Heap :=
  match c with
  | some c2 => setParentH h c2 x
  | none => h

/-- The body of `exchange_nodes` after the initial size swap and the
`if (p->parent_ == q) std::swap(p, q)` renaming, statement by statement.
Every C++ read uses the heap state current at that statement; the reference
bindings of `std::swap(owner(p), owner(q))` and the `std::swap` temporaries
are captured before the corresponding writes, as in C++. -/
def exchange_core (h : Heap) (p q : Nat) : Heap :=
  if (h q).parent = p then
    let s1 := ownerIsLeft h p
    let h2 := writeSlot h (h p).parent s1 (some q)
    let h3 := setParentH h2 q (h2 p).parent
    let h4 := setParentH h3 p q
    if (h4 p).left = some q then
      let h5 := setLeftH h4 p (h4 q).left
      let h6 := setLeftH h5 q (some p)
      let h7 := setRightH (setRightH h6 p (h6 q).right) q (h6 p).right
      let h8 := fixParent h7 (h7 p).left p
      let h9 := fixParent h8 (h8 p).right p
      fixParent h9 (h9 q).right q
    else
      let h5 := setRightH h4 p (h4 q).right
      let h6 := setRightH h5 q (some p)
      let h7 := setLeftH (setLeftH h6 p (h6 q).left) q (h6 p).left
      let h8 := fixParent h7 (h7 p).left p
      let h9 := fixParent h8 (h8 p).right p
      fixParent h9 (h9 q).left q
  else
    let s1 := ownerIsLeft h p
    let s2 := ownerIsLeft h q
    let h2 := writeSlot h (h p).parent s1 (some q)
    let h3 := writeSlot h2 (h q).parent s2 (some p)
    let h4 := setParentH (setParentH h3 p (h3 q).parent) q (h3 p).parent
    let h5 := setLeftH (setLeftH h4 p (h4 q).left) q (h4 p).left
    let h6 := setRightH (setRightH h5 p (h5 q).right) q (h5 p).right
    let h7 := fixParent h6 (h6 p).left p
    let h8 := fixParent h7 (h7 p).right p
    let h9 := fixParent h8 (h8 q).left q
    fixParent h9 (h9 q).right q

/-- `exchange_nodes(p, q)`: swap the stored sizes, normalise the pair so
that when the two nodes are adjacent `q` is the child, then relink. -/
def exchange_nodes (h0 : Heap) (p0 q0 : Nat) : Heap :=
  let h1 := setSizeH (setSizeH h0 p0 (h0 q0).size) q0 (h0 p0).size
  if (h1 p0).parent = q0 then exchange_core h1 q0 p0 else exchange_core h1 p0 q0

theorem setSizeH_value (h : Heap) (x : Nat) (s2 : Nat) (b : Nat) :
    (setSizeH h x s2 b).value = (h b).value := by
  unfold setSizeH
  split <;> rfl

theorem setSizeH_left (h : Heap) (x : Nat) (s2 : Nat) (b : Nat) :
    (setSizeH h x s2 b).left = (h b).left := by
  unfold setSizeH
  split <;> rfl

theorem setSizeH_right (h : Heap) (x : Nat) (s2 : Nat) (b : Nat) :
    (setSizeH h x s2 b).right = (h b).right := by
  unfold setSizeH
  split <;> rfl

theorem setSizeH_parent (h : Heap) (x : Nat) (s2 : Nat) (b : Nat) :
    (setSizeH h x s2 b).parent = (h b).parent := by
  unfold setSizeH
  split <;> rfl

theorem setSizeH_size (h : Heap) (x : Nat) (s2 : Nat) (b : Nat) :
    (setSizeH h x s2 b).size = if b = x then s2 else (h b).size := by
  unfold setSizeH
  split <;> rfl

theorem setLeftH_value (h : Heap) (x : Nat) (v : Option Nat) (b : Nat) :
    (setLeftH h x v b).value = (h b).value := by
  unfold setLeftH
  split <;> rfl

theorem setLeftH_size (h : Heap) (x : Nat) (v : Option Nat) (b : Nat) :
    (setLeftH h x v b).size = (h b).size := by
  unfold setLeftH
  split <;> rfl

theorem setLeftH_right (h : Heap) (x : Nat) (v : Option Nat) (b : Nat) :
    (setLeftH h x v b).right = (h b).right := by
  unfold setLeftH
  split <;> rfl

theorem setLeftH_parent (h : Heap) (x : Nat) (v : Option Nat) (b : Nat) :
    (setLeftH h x v b).parent = (h b).parent := by
  unfold setLeftH
  split <;> rfl

theorem setLeftH_left (h : Heap) (x : Nat) (v : Option Nat) (b : Nat) :
    (setLeftH h x v b).left = if b = x then v else (h b).left := by
  unfold setLeftH
  split <;> rfl

theorem setRightH_value (h : Heap) (x : Nat) (v : Option Nat) (b : Nat) :
    (setRightH h x v b).value = (h b).value := by
  unfold setRightH
  split <;> rfl

theorem setRightH_size (h : Heap) (x : Nat) (v : Option Nat) (b : Nat) :
    (setRightH h x v b).size = (h b).size := by
  unfold setRightH
  split <;> rfl

theorem setRightH_left (h : Heap) (x : Nat) (v : Option Nat) (b : Nat) :
    (setRightH h x v b).left = (h b).left := by
  unfold setRightH
  split <;> rfl

theorem setRightH_parent (h : Heap) (x : Nat) (v : Option Nat) (b : Nat) :
    (setRightH h x v b).parent = (h b).parent := by
  unfold setRightH
  split <;> rfl

theorem setRightH_right (h : Heap) (x : Nat) (v : Option Nat) (b : Nat) :
    (setRightH h x v b).right = if b = x then v else (h b).right := by
  unfold setRightH
  split <;> rfl

theorem setParentH_value (h : Heap) (x : Nat) (v : Nat) (b : Nat) :
    (setParentH h x v b).value = (h b).value := by
  unfold setParentH
  split <;> rfl

theorem setParentH_size (h : Heap) (x : Nat) (v : Nat) (b : Nat) :
    (setParentH h x v b).size = (h b).size := by
  unfold setParentH
  split <;> rfl

theorem setParentH_left (h : Heap) (x : Nat) (v : Nat) (b : Nat) :
    (setParentH h x v b).left = (h b).left := by
  unfold setParentH
  split <;> rfl

theorem setParentH_right (h : Heap) (x : Nat) (v : Nat) (b : Nat) :
    (setParentH h x v b).right = (h b).right := by
  unfold setParentH
  split <;> rfl

theorem setParentH_parent (h : Heap) (x : Nat) (v : Nat) (b : Nat) :
    (setParentH h x v b).parent = if b = x then v else (h b).parent := by
  unfold setParentH
  split <;> rfl

theorem writeSlot_value (h : Heap) (par : Nat) (sl : Bool) (x : Option Nat)
    (b : Nat) : (writeSlot h par sl x b).value = (h b).value := by
  unfold writeSlot
  split
  · exact setLeftH_value h par x b
  · exact setRightH_value h par x b

theorem writeSlot_size (h : Heap) (par : Nat) (sl : Bool) (x : Option Nat)
    (b : Nat) : (writeSlot h par sl x b).size = (h b).size := by
  unfold writeSlot
  split
  · exact setLeftH_size h par x b
  · exact setRightH_size h par x b

theorem writeSlot_parent (h : Heap) (par : Nat) (sl : Bool) (x : Option Nat)
    (b : Nat) : (writeSlot h par sl x b).parent = (h b).parent := by
  unfold writeSlot
  split
  · exact setLeftH_parent h par x b
  · exact setRightH_parent h par x b

theorem writeSlot_left (h : Heap) (par : Nat) (sl : Bool) (x : Option Nat)
    (b : Nat) : (writeSlot h par sl x b).left =
      if sl = true ∧ b = par then x else (h b).left := by
  unfold writeSlot
  cases sl with
  | true =>
    rw [if_pos rfl, setLeftH_left]
    by_cases hb : b = par
    · rw [if_pos hb, if_pos ⟨rfl, hb⟩]
    · rw [if_neg hb, if_neg (by simp [hb])]
  | false =>
    rw [if_neg (by simp), setRightH_left, if_neg (by simp)]

theorem writeSlot_right (h : Heap) (par : Nat) (sl : Bool) (x : Option Nat)
    (b : Nat) : (writeSlot h par sl x b).right =
      if sl = false ∧ b = par then x else (h b).right := by
  unfold writeSlot
  cases sl with
  | false =>
    rw [if_neg (by simp), setRightH_right]
    by_cases hb : b = par
    · rw [if_pos hb, if_pos ⟨rfl, hb⟩]
    · rw [if_neg hb, if_neg (by simp [hb])]
  | true =>
    rw [if_pos rfl, setLeftH_right, if_neg (by simp)]

theorem fixParent_value (h : Heap) (c : Option Nat) (x : Nat) (b : Nat) :
    (fixParent h c x b).value = (h b).value := by
  unfold fixParent
  split
  · rw [setParentH_value]
  · rfl

theorem fixParent_size (h : Heap) (c : Option Nat) (x : Nat) (b : Nat) :
    (fixParent h c x b).size = (h b).size := by
  unfold fixParent
  split
  · rw [setParentH_size]
  · rfl

theorem fixParent_left (h : Heap) (c : Option Nat) (x : Nat) (b : Nat) :
    (fixParent h c x b).left = (h b).left := by
  unfold fixParent
  split
  · rw [setParentH_left]
  · rfl

theorem fixParent_right (h : Heap) (c : Option Nat) (x : Nat) (b : Nat) :
    (fixParent h c x b).right = (h b).right := by
  unfold fixParent
  split
  · rw [setParentH_right]
  · rfl

theorem fixParent_parent (h : Heap) (c : Option Nat) (x : Nat) (b : Nat) :
    (fixParent h c x b).parent = if c = some b then x else (h b).parent := by
  cases c with
  | none =>
    show (h b).parent = if (none : Option Nat) = some b then x else (h b).parent
    rw [if_neg (by simp)]
  | some c2 =>
    show (setParentH h c2 x b).parent = _
    rw [setParentH_parent]
    by_cases hb : b = c2
    · subst hb
      rw [if_pos rfl, if_pos rfl]
    · rw [if_neg hb, if_neg (by simp [Ne.symm hb])]

/-- The address transposition `p ↔ q`. -/
def swapA (p q a : Nat) : Nat := if a = p then q else if a = q then p else a

/-- The heap in which the node objects at `p` and `q` have traded places:
each address keeps its own `value_` but takes over the other slot's
`size_`/`left_`/`right_`/`parent_` fields, with every pointer relabelled
through the transposition. -/
def relabelHeap (p q : Nat) (h : Heap) : Heap := fun a =>
  { value := (h a).value
    size := (h (swapA p q a)).size
    left := ((h (swapA p q a)).left).map (swapA p q)
    right := ((h (swapA p q a)).right).map (swapA p q)
    parent := swapA p q ((h (swapA p q a)).parent) }

/-- Like `relabelHeap`, for the heap in which the stored sizes of `p` and
`q` have already been swapped: each address keeps its own `value_` and
`size_`, and the pointer structure is relabelled through the transposition. -/
def relabelPtr (p q : Nat) (h : Heap) : Heap := fun a =>
  { value := (h a).value
    size := (h a).size
    left := ((h (swapA p q a)).left).map (swapA p q)
    right := ((h (swapA p q a)).right).map (swapA p q)
    parent := swapA p q ((h (swapA p q a)).parent) }

/-- Every child's parent pointer correctly identifies its parent. -/
def ParentOk (h : Heap) : Prop :=
  ∀ a c : Nat, ((h a).left = some c ∨ (h a).right = some c) → (h c).parent = a

/-- Every non-self-parented node is actually a child of its parent. -/
def OwnerOk (h : Heap) : Prop :=
  ∀ a : Nat, (h a).parent ≠ a →
    ((h (h a).parent).left = some a ∨ (h (h a).parent).right = some a)

/-- No node is both children of one parent. -/
def ChildrenDistinct (h : Heap) : Prop :=
  ∀ a c : Nat, (h a).left = some c → (h a).right ≠ some c

/-- No node is its own child. -/
def NoSelfChild (h : Heap) : Prop :=
  ∀ a : Nat, (h a).left ≠ some a ∧ (h a).right ≠ some a

/-- The parent relation has no 2-cycles between distinct nodes. -/
def NoTwoCycle (h : Heap) : Prop :=
  ∀ a b : Nat, (h a).parent = b → (h b).parent = a → a = b

theorem exchange_core_distant (h : Heap) (p q : Nat)
    (hpo : ParentOk h) (hoo : OwnerOk h) (hcd : ChildrenDistinct h)
    (hsc : NoSelfChild h)
    (hp : (h p).parent ≠ p) (hq : (h q).parent ≠ q) (hpq : p ≠ q)
    (hnpq : (h p).parent ≠ q) (hnqp : (h q).parent ≠ p) :
    exchange_core h p q = relabelPtr p q h := by
  have hqlp : (h q).left ≠ some p := fun hh => hnpq (hpo q p (Or.inl hh))
  have hqrp : (h q).right ≠ some p := fun hh => hnpq (hpo q p (Or.inr hh))
  have hplq : (h p).left ≠ some q := fun hh => hnqp (hpo p q (Or.inl hh))
  have hprq : (h p).right ≠ some q := fun hh => hnqp (hpo p q (Or.inr hh))
  funext b
  unfold exchange_core
  rw [if_neg hnqp]
  apply NodeRec.ext
  · simp only [relabelPtr, fixParent_value, setRightH_value, setLeftH_value,
      setParentH_value, writeSlot_value]
  · simp only [relabelPtr, fixParent_size, setRightH_size, setLeftH_size,
      setParentH_size, writeSlot_size]
  · -- left field
    simp only [relabelPtr, fixParent_left, setRightH_left, setLeftH_left,
      setParentH_left, writeSlot_left, hpq, Ne.symm hpq, Ne.symm hp,
      Ne.symm hq, Ne.symm hnpq, Ne.symm hnqp, if_true, if_false, and_false,
      false_and, ite_true, ite_false, eq_self_iff_true, true_and]
    by_cases hb1 : b = p
    · subst hb1
      rw [if_neg hpq, if_pos rfl]
      cases hcql : (h q).left with
      | none => simp [swapA, hcql]
      | some c =>
        have hcb : c ≠ b := fun hh => hqlp (by rw [hcql, hh])
        have hcq : c ≠ q := fun hh => (hsc q).1 (by rw [hcql, hh])
        simp [swapA, hcql, hcb, hcq]
    · by_cases hb2 : b = q
      · subst hb2
        rw [if_pos rfl]
        cases hcpl : (h p).left with
        | none => simp [swapA, hcpl, hb1]
        | some c =>
          have hcb : c ≠ b := fun hh => hplq (by rw [hcpl, hh])
          have hcp : c ≠ p := fun hh => (hsc p).1 (by rw [hcpl, hh])
          simp [swapA, hcpl, hb1, hcb, hcp]
      · rw [if_neg hb2, if_neg hb1]
        by_cases hs2b : ownerIsLeft h q = true ∧ b = (h q).parent
        · obtain ⟨hs2, hbe⟩ := hs2b
          rw [if_pos ⟨hs2, hbe⟩]
          rw [ownerIsLeft, beq_iff_eq] at hs2
          rw [← hbe] at hs2
          simp [swapA, hb1, hb2, hs2, Ne.symm hpq]
        · rw [if_neg hs2b]
          by_cases hs1b : ownerIsLeft h p = true ∧ b = (h p).parent
          · obtain ⟨hs1, hbe⟩ := hs1b
            rw [if_pos ⟨hs1, hbe⟩]
            rw [ownerIsLeft, beq_iff_eq] at hs1
            rw [← hbe] at hs1
            simp [swapA, hb1, hb2, hs1]
          · rw [if_neg hs1b]
            cases hbl : (h b).left with
            | none => simp [swapA, hbl, hb1, hb2]
            | some c =>
              have hcp : c ≠ p := by
                intro hh
                subst hh
                have hpar := hpo b c (Or.inl hbl)
                exact hs1b ⟨by rw [ownerIsLeft, beq_iff_eq, hpar, hbl],
                  hpar.symm⟩
              have hcq : c ≠ q := by
                intro hh
                subst hh
                have hpar := hpo b c (Or.inl hbl)
                exact hs2b ⟨by rw [ownerIsLeft, beq_iff_eq, hpar, hbl],
                  hpar.symm⟩
              simp [swapA, hbl, hb1, hb2, hcp, hcq]
  · -- right field
    simp only [relabelPtr, fixParent_right, setRightH_right, setLeftH_right,
      setParentH_right, writeSlot_right, hpq, Ne.symm hpq, Ne.symm hp,
      Ne.symm hq, Ne.symm hnpq, Ne.symm hnqp, if_true, if_false, and_false,
      false_and, ite_true, ite_false, eq_self_iff_true, true_and]
    by_cases hb1 : b = p
    · subst hb1
      rw [if_neg hpq, if_pos rfl]
      cases hcqr : (h q).right with
      | none => simp [swapA, hcqr]
      | some c =>
        have hcb : c ≠ b := fun hh => hqrp (by rw [hcqr, hh])
        have hcq : c ≠ q := fun hh => (hsc q).2 (by rw [hcqr, hh])
        simp [swapA, hcqr, hcb, hcq]
    · by_cases hb2 : b = q
      · subst hb2
        rw [if_pos rfl]
        cases hcpr : (h p).right with
        | none => simp [swapA, hcpr, hb1]
        | some c =>
          have hcb : c ≠ b := fun hh => hprq (by rw [hcpr, hh])
          have hcp : c ≠ p := fun hh => (hsc p).2 (by rw [hcpr, hh])
          simp [swapA, hcpr, hb1, hcb, hcp]
      · rw [if_neg hb2, if_neg hb1]
        by_cases hs2b : ownerIsLeft h q = false ∧ b = (h q).parent
        · obtain ⟨hs2, hbe⟩ := hs2b
          rw [if_pos ⟨hs2, hbe⟩]
          have hright : (h (h q).parent).right = some q := by
            rcases hoo q hq with h1 | h1
            · rw [ownerIsLeft, h1] at hs2
              simp at hs2
            · exact h1
          rw [← hbe] at hright
          simp [swapA, hb1, hb2, hright, Ne.symm hpq]
        · rw [if_neg hs2b]
          by_cases hs1b : ownerIsLeft h p = false ∧ b = (h p).parent
          · obtain ⟨hs1, hbe⟩ := hs1b
            rw [if_pos ⟨hs1, hbe⟩]
            have hright : (h (h p).parent).right = some p := by
              rcases hoo p hp with h1 | h1
              · rw [ownerIsLeft, h1] at hs1
                simp at hs1
              · exact h1
            rw [← hbe] at hright
            simp [swapA, hb1, hb2, hright]
          · rw [if_neg hs1b]
            cases hbr : (h b).right with
            | none => simp [swapA, hbr, hb1, hb2]
            | some c =>
              have hcp : c ≠ p := by
                intro hh
                have hbrp : (h b).right = some p := by rw [hbr, hh]
                have hpar := hpo b p (Or.inr hbrp)
                have hnotleft : ownerIsLeft h p = false := by
                  rw [ownerIsLeft, hpar]
                  cases hlf : (h b).left with
                  | none => rfl
                  | some c2 =>
                    by_cases hc2 : c2 = p
                    · rw [hc2] at hlf
                      exact absurd hbrp (hcd b p hlf)
                    · simp [hc2]
                exact hs1b ⟨hnotleft, hpar.symm⟩
              have hcq : c ≠ q := by
                intro hh
                have hbrq : (h b).right = some q := by rw [hbr, hh]
                have hpar := hpo b q (Or.inr hbrq)
                have hnotleft : ownerIsLeft h q = false := by
                  rw [ownerIsLeft, hpar]
                  cases hlf : (h b).left with
                  | none => rfl
                  | some c2 =>
                    by_cases hc2 : c2 = q
                    · rw [hc2] at hlf
                      exact absurd hbrq (hcd b q hlf)
                    · simp [hc2]
                exact hs2b ⟨hnotleft, hpar.symm⟩
              simp [swapA, hbr, hb1, hb2, hcp, hcq]
  · -- parent field
    simp only [relabelPtr, fixParent_parent, setRightH_parent, setLeftH_parent,
      setParentH_parent, writeSlot_parent, fixParent_right, fixParent_left,
      setRightH_right, setRightH_left, setLeftH_left, setLeftH_right,
      setParentH_left, setParentH_right, writeSlot_left, writeSlot_right,
      hpq, Ne.symm hpq, Ne.symm hp, Ne.symm hq, Ne.symm hnpq, Ne.symm hnqp,
      if_true, if_false, and_false, false_and, ite_true, ite_false,
      eq_self_iff_true, true_and]
    by_cases hb1 : b = p
    · subst hb1
      rw [if_neg (hsc b).2, if_neg (hsc b).1, if_neg hqrp, if_neg hqlp,
        if_neg hpq, if_pos rfl]
      simp [swapA, hnqp, hq]
    · by_cases hb2 : b = q
      · subst hb2
        rw [if_neg hprq, if_neg hplq, if_neg (hsc b).2, if_neg (hsc b).1,
          if_pos rfl]
        simp [swapA, hb1, hnpq, hp]
      · by_cases hc1 : (h p).right = some b
        · rw [if_pos hc1]
          have hpar := hpo p b (Or.inr hc1)
          simp [swapA, hb1, hb2, hpar]
        · by_cases hc2 : (h p).left = some b
          · rw [if_neg hc1, if_pos hc2]
            have hpar := hpo p b (Or.inl hc2)
            simp [swapA, hb1, hb2, hpar]
          · by_cases hc3 : (h q).right = some b
            · rw [if_neg hc1, if_neg hc2, if_pos hc3]
              have hpar := hpo q b (Or.inr hc3)
              simp [swapA, hb1, hb2, hpar, Ne.symm hpq]
            · by_cases hc4 : (h q).left = some b
              · rw [if_neg hc1, if_neg hc2, if_neg hc3, if_pos hc4]
                have hpar := hpo q b (Or.inl hc4)
                simp [swapA, hb1, hb2, hpar, Ne.symm hpq]
              · rw [if_neg hc1, if_neg hc2, if_neg hc3, if_neg hc4,
                  if_neg hb2, if_neg hb1]
                have hbp : (h b).parent ≠ p := by
                  intro hh
                  rcases hoo b (by rw [hh]; exact fun hx => hb1 hx.symm)
                    with h1 | h1
                  · rw [hh] at h1
                    exact hc2 h1
                  · rw [hh] at h1
                    exact hc1 h1
                have hbq : (h b).parent ≠ q := by
                  intro hh
                  rcases hoo b (by rw [hh]; exact fun hx => hb2 hx.symm)
                    with h1 | h1
                  · rw [hh] at h1
                    exact hc4 h1
                  · rw [hh] at h1
                    exact hc3 h1
                simp [swapA, hb1, hb2, hbp, hbq]

theorem exchange_core_adjacent (h : Heap) (p q : Nat)
    (hpo : ParentOk h) (hoo : OwnerOk h) (hcd : ChildrenDistinct h)
    (hsc : NoSelfChild h) (htc : NoTwoCycle h)
    (hp : (h p).parent ≠ p) (hpq : p ≠ q)
    (hadj : (h q).parent = p) :
    exchange_core h p q = relabelPtr p q h := by
  have hnpq : (h p).parent ≠ q := fun hh => hpq (htc p q hh hadj)
  have hq : (h q).parent ≠ q := by rw [hadj]; exact hpq
  have hqlp : (h q).left ≠ some p := fun hh => hnpq (hpo q p (Or.inl hh))
  have hqrp : (h q).right ≠ some p := fun hh => hnpq (hpo q p (Or.inr hh))
  unfold exchange_core
  rw [if_pos hadj]
  dsimp only
  rw [show (setParentH
      (setParentH (writeSlot h (h p).parent (ownerIsLeft h p) (some q)) q
        (writeSlot h (h p).parent (ownerIsLeft h p) (some q) p).parent)
      p q p).left = (h p).left by
    rw [setParentH_left, setParentH_left, writeSlot_left,
      if_neg (fun hh => hp (And.right hh).symm)]]
  by_cases hlq : (h p).left = some q
  · rw [if_pos hlq]
    have hprq2 : (h p).right ≠ some q := hcd p q hlq
    funext b
    apply NodeRec.ext
    · simp only [relabelPtr, fixParent_value, setRightH_value, setLeftH_value,
        setParentH_value, writeSlot_value]
    · simp only [relabelPtr, fixParent_size, setRightH_size, setLeftH_size,
        setParentH_size, writeSlot_size]
    · -- left field
      simp only [relabelPtr, fixParent_left, setRightH_left, setLeftH_left,
        setParentH_left, writeSlot_left, hpq, Ne.symm hpq, Ne.symm hp,
        Ne.symm hq, Ne.symm hnpq, if_true, if_false, and_false, false_and,
        ite_true, ite_false, eq_self_iff_true, true_and]
      by_cases hb1 : b = p
      · subst hb1
        rw [if_neg hpq, if_pos rfl]
        cases hcql : (h q).left with
        | none => simp [swapA, hcql]
        | some c =>
          have hcb : c ≠ b := fun hh => hqlp (by rw [hcql, hh])
          have hcq : c ≠ q := fun hh => (hsc q).1 (by rw [hcql, hh])
          simp [swapA, hcql, hcb, hcq]
      · by_cases hb2 : b = q
        · subst hb2
          rw [if_pos rfl]
          simp [swapA, hb1, hlq]
        · rw [if_neg hb2, if_neg hb1]
          by_cases hs1b : ownerIsLeft h p = true ∧ b = (h p).parent
          · obtain ⟨hs1, hbe⟩ := hs1b
            rw [if_pos ⟨hs1, hbe⟩]
            rw [ownerIsLeft, beq_iff_eq] at hs1
            rw [← hbe] at hs1
            simp [swapA, hb1, hb2, hs1]
          · rw [if_neg hs1b]
            cases hbl : (h b).left with
            | none => simp [swapA, hbl, hb1, hb2]
            | some c =>
              have hcp : c ≠ p := by
                intro hh
                have hblp : (h b).left = some p := by rw [hbl, hh]
                have hpar := hpo b p (Or.inl hblp)
                exact hs1b ⟨by rw [ownerIsLeft, beq_iff_eq, hpar, hblp],
                  hpar.symm⟩
              have hcq : c ≠ q := by
                intro hh
                have hblq : (h b).left = some q := by rw [hbl, hh]
                have hpar := hpo b q (Or.inl hblq)
                rw [hadj] at hpar
                exact hb1 hpar.symm
              simp [swapA, hbl, hb1, hb2, hcp, hcq]
    · -- right field
      simp only [relabelPtr, fixParent_right, setRightH_right, setLeftH_right,
        setParentH_right, writeSlot_right, hpq, Ne.symm hpq, Ne.symm hp,
        Ne.symm hq, Ne.symm hnpq, if_true, if_false, and_false, false_and,
        ite_true, ite_false, eq_self_iff_true, true_and]
      by_cases hb1 : b = p
      · subst hb1
        rw [if_neg hpq, if_pos rfl]
        cases hcqr : (h q).right with
        | none => simp [swapA, hcqr]
        | some c =>
          have hcb : c ≠ b := fun hh => hqrp (by rw [hcqr, hh])
          have hcq : c ≠ q := fun hh => (hsc q).2 (by rw [hcqr, hh])
          simp [swapA, hcqr, hcb, hcq]
      · by_cases hb2 : b = q
        · subst hb2
          rw [if_pos rfl]
          cases hcpr : (h p).right with
          | none => simp [swapA, hcpr, hb1]
          | some c =>
            have hcb : c ≠ b := fun hh => hprq2 (by rw [hcpr, hh])
            have hcp : c ≠ p := fun hh => (hsc p).2 (by rw [hcpr, hh])
            simp [swapA, hcpr, hb1, hcb, hcp]
        · rw [if_neg hb2, if_neg hb1]
          by_cases hs1b : ownerIsLeft h p = false ∧ b = (h p).parent
          · obtain ⟨hs1, hbe⟩ := hs1b
            rw [if_pos ⟨hs1, hbe⟩]
            have hright : (h (h p).parent).right = some p := by
              rcases hoo p hp with h1 | h1
              · rw [ownerIsLeft, h1] at hs1
                simp at hs1
              · exact h1
            rw [← hbe] at hright
            simp [swapA, hb1, hb2, hright]
          · rw [if_neg hs1b]
            cases hbr : (h b).right with
            | none => simp [swapA, hbr, hb1, hb2]
            | some c =>
              have hcp : c ≠ p := by
                intro hh
                have hbrp : (h b).right = some p := by rw [hbr, hh]
                have hpar := hpo b p (Or.inr hbrp)
                have hnotleft : ownerIsLeft h p = false := by
                  rw [ownerIsLeft, hpar]
                  cases hlf : (h b).left with
                  | none => rfl
                  | some c2 =>
                    by_cases hc2 : c2 = p
                    · rw [hc2] at hlf
                      exact absurd hbrp (hcd b p hlf)
                    · simp [hc2]
                exact hs1b ⟨hnotleft, hpar.symm⟩
              have hcq : c ≠ q := by
                intro hh
                have hbrq : (h b).right = some q := by rw [hbr, hh]
                have hpar := hpo b q (Or.inr hbrq)
                rw [hadj] at hpar
                exact hb1 hpar.symm
              simp [swapA, hbr, hb1, hb2, hcp, hcq]
    · -- parent field
      simp only [relabelPtr, fixParent_parent, setRightH_parent,
        setLeftH_parent, setParentH_parent, writeSlot_parent, fixParent_right,
        fixParent_left, setRightH_right, setRightH_left, setLeftH_left,
        setLeftH_right, setParentH_left, setParentH_right, writeSlot_left,
        writeSlot_right, hpq, Ne.symm hpq, Ne.symm hp, Ne.symm hq,
        Ne.symm hnpq, if_true, if_false, and_false, false_and, ite_true,
        ite_false, eq_self_iff_true, true_and]
      by_cases hb1 : b = p
      · subst hb1
        rw [if_neg (hsc b).2, if_neg hqrp, if_neg hqlp, if_pos rfl]
        simp [swapA, Ne.symm hpq, hadj]
      · by_cases hb2 : b = q
        · subst hb2
          rw [if_neg hprq2, if_neg (hsc b).2, if_neg (hsc b).1, if_neg hb1,
            if_pos rfl]
          simp [swapA, hb1, hnpq, hp]
        · by_cases hc1 : (h p).right = some b
          · rw [if_pos hc1]
            have hpar := hpo p b (Or.inr hc1)
            simp [swapA, hb1, hb2, hpar]
          · by_cases hc3 : (h q).right = some b
            · rw [if_neg hc1, if_pos hc3]
              have hpar := hpo q b (Or.inr hc3)
              simp [swapA, hb1, hb2, hpar, Ne.symm hpq]
            · by_cases hc4 : (h q).left = some b
              · rw [if_neg hc1, if_neg hc3, if_pos hc4]
                have hpar := hpo q b (Or.inl hc4)
                simp [swapA, hb1, hb2, hpar, Ne.symm hpq]
              · rw [if_neg hc1, if_neg hc3, if_neg hc4, if_neg hb1,
                  if_neg hb2]
                have hbp : (h b).parent ≠ p := by
                  intro hh
                  rcases hoo b (by rw [hh]; exact fun hx => hb1 hx.symm)
                    with h1 | h1
                  · rw [hh] at h1
                    rw [h1] at hlq
                    exact hb2 (by injection hlq)
                  · rw [hh] at h1
                    exact hc1 h1
                have hbq : (h b).parent ≠ q := by
                  intro hh
                  rcases hoo b (by rw [hh]; exact fun hx => hb2 hx.symm)
                    with h1 | h1
                  · rw [hh] at h1
                    exact hc4 h1
                  · rw [hh] at h1
                    exact hc3 h1
                simp [swapA, hb1, hb2, hbp, hbq]
  · rw [if_neg hlq]
    have hrq : (h p).right = some q := by
      rcases hoo q hq with h1 | h1
      · rw [hadj] at h1
        exact absurd h1 hlq
      · rw [hadj] at h1
        exact h1
    funext b
    apply NodeRec.ext
    · simp only [relabelPtr, fixParent_value, setRightH_value, setLeftH_value,
        setParentH_value, writeSlot_value]
    · simp only [relabelPtr, fixParent_size, setRightH_size, setLeftH_size,
        setParentH_size, writeSlot_size]
    · -- left field
      simp only [relabelPtr, fixParent_left, setRightH_left, setLeftH_left,
        setParentH_left, writeSlot_left, hpq, Ne.symm hpq, Ne.symm hp,
        Ne.symm hq, Ne.symm hnpq, if_true, if_false, and_false, false_and,
        ite_true, ite_false, eq_self_iff_true, true_and]
      by_cases hb1 : b = p
      · subst hb1
        rw [if_neg hpq, if_pos rfl]
        cases hcql : (h q).left with
        | none => simp [swapA, hcql]
        | some c =>
          have hcb : c ≠ b := fun hh => hqlp (by rw [hcql, hh])
          have hcq : c ≠ q := fun hh => (hsc q).1 (by rw [hcql, hh])
          simp [swapA, hcql, hcb, hcq]
      · by_cases hb2 : b = q
        · subst hb2
          rw [if_pos rfl]
          cases hcpl : (h p).left with
          | none => simp [swapA, hcpl, hb1]
          | some c =>
            have hcb : c ≠ b := fun hh => hlq (by rw [hcpl, hh])
            have hcp : c ≠ p := fun hh => (hsc p).1 (by rw [hcpl, hh])
            simp [swapA, hcpl, hb1, hcb, hcp]
        · rw [if_neg hb2, if_neg hb1]
          by_cases hs1b : ownerIsLeft h p = true ∧ b = (h p).parent
          · obtain ⟨hs1, hbe⟩ := hs1b
            rw [if_pos ⟨hs1, hbe⟩]
            rw [ownerIsLeft, beq_iff_eq] at hs1
            rw [← hbe] at hs1
            simp [swapA, hb1, hb2, hs1]
          · rw [if_neg hs1b]
            cases hbl : (h b).left with
            | none => simp [swapA, hbl, hb1, hb2]
            | some c =>
              have hcp : c ≠ p := by
                intro hh
                have hblp : (h b).left = some p := by rw [hbl, hh]
                have hpar := hpo b p (Or.inl hblp)
                exact hs1b ⟨by rw [ownerIsLeft, beq_iff_eq, hpar, hblp],
                  hpar.symm⟩
              have hcq : c ≠ q := by
                intro hh
                have hblq : (h b).left = some q := by rw [hbl, hh]
                have hpar := hpo b q (Or.inl hblq)
                rw [hadj] at hpar
                exact hb1 hpar.symm
              simp [swapA, hbl, hb1, hb2, hcp, hcq]
    · -- right field
      simp only [relabelPtr, fixParent_right, setRightH_right, setLeftH_right,
        setParentH_right, writeSlot_right, hpq, Ne.symm hpq, Ne.symm hp,
        Ne.symm hq, Ne.symm hnpq, if_true, if_false, and_false, false_and,
        ite_true, ite_false, eq_self_iff_true, true_and]
      by_cases hb1 : b = p
      · subst hb1
        rw [if_neg hpq, if_pos rfl]
        cases hcqr : (h q).right with
        | none => simp [swapA, hcqr]
        | some c =>
          have hcb : c ≠ b := fun hh => hqrp (by rw [hcqr, hh])
          have hcq : c ≠ q := fun hh => (hsc q).2 (by rw [hcqr, hh])
          simp [swapA, hcqr, hcb, hcq]
      · by_cases hb2 : b = q
        · subst hb2
          rw [if_pos rfl]
          simp [swapA, hb1, hrq]
        · rw [if_neg hb2, if_neg hb1]
          by_cases hs1b : ownerIsLeft h p = false ∧ b = (h p).parent
          · obtain ⟨hs1, hbe⟩ := hs1b
            rw [if_pos ⟨hs1, hbe⟩]
            have hright : (h (h p).parent).right = some p := by
              rcases hoo p hp with h1 | h1
              · rw [ownerIsLeft, h1] at hs1
                simp at hs1
              · exact h1
            rw [← hbe] at hright
            simp [swapA, hb1, hb2, hright]
          · rw [if_neg hs1b]
            cases hbr : (h b).right with
            | none => simp [swapA, hbr, hb1, hb2]
            | some c =>
              have hcp : c ≠ p := by
                intro hh
                have hbrp : (h b).right = some p := by rw [hbr, hh]
                have hpar := hpo b p (Or.inr hbrp)
                have hnotleft : ownerIsLeft h p = false := by
                  rw [ownerIsLeft, hpar]
                  cases hlf : (h b).left with
                  | none => rfl
                  | some c2 =>
                    by_cases hc2 : c2 = p
                    · rw [hc2] at hlf
                      exact absurd hbrp (hcd b p hlf)
                    · simp [hc2]
                exact hs1b ⟨hnotleft, hpar.symm⟩
              have hcq : c ≠ q := by
                intro hh
                have hbrq : (h b).right = some q := by rw [hbr, hh]
                have hpar := hpo b q (Or.inr hbrq)
                rw [hadj] at hpar
                exact hb1 hpar.symm
              simp [swapA, hbr, hb1, hb2, hcp, hcq]
    · -- parent field
      simp only [relabelPtr, fixParent_parent, setRightH_parent,
        setLeftH_parent, setParentH_parent, writeSlot_parent, fixParent_right,
        fixParent_left, setRightH_right, setRightH_left, setLeftH_left,
        setLeftH_right, setParentH_left, setParentH_right, writeSlot_left,
        writeSlot_right, hpq, Ne.symm hpq, Ne.symm hp, Ne.symm hq,
        Ne.symm hnpq, if_true, if_false, and_false, false_and, ite_true,
        ite_false, eq_self_iff_true, true_and]
      by_cases hb1 : b = p
      · subst hb1
        rw [if_neg (hsc b).1, if_neg hqrp, if_neg hqlp, if_pos rfl]
        simp [swapA, Ne.symm hpq, hadj]
      · by_cases hb2 : b = q
        · subst hb2
          rw [if_neg hlq, if_neg (hsc b).2, if_neg (hsc b).1, if_neg hb1,
            if_pos rfl]
          simp [swapA, hb1, hnpq, hp]
        · by_cases hc1 : (h p).left = some b
          · rw [if_pos hc1]
            have hpar := hpo p b (Or.inl hc1)
            simp [swapA, hb1, hb2, hpar]
          · by_cases hc3 : (h q).right = some b
            · rw [if_neg hc1, if_pos hc3]
              have hpar := hpo q b (Or.inr hc3)
              simp [swapA, hb1, hb2, hpar, Ne.symm hpq]
            · by_cases hc4 : (h q).left = some b
              · rw [if_neg hc1, if_neg hc3, if_pos hc4]
                have hpar := hpo q b (Or.inl hc4)
                simp [swapA, hb1, hb2, hpar, Ne.symm hpq]
              · rw [if_neg hc1, if_neg hc3, if_neg hc4, if_neg hb1,
                  if_neg hb2]
                have hbp : (h b).parent ≠ p := by
                  intro hh
                  rcases hoo b (by rw [hh]; exact fun hx => hb1 hx.symm)
                    with h1 | h1
                  · rw [hh] at h1
                    exact hc1 h1
                  · rw [hh] at h1
                    rw [h1] at hrq
                    exact hb2 (by injection hrq)
                have hbq : (h b).parent ≠ q := by
                  intro hh
                  rcases hoo b (by rw [hh]; exact fun hx => hb2 hx.symm)
                    with h1 | h1
                  · rw [hh] at h1
                    exact hc4 h1
                  · rw [hh] at h1
                    exact hc3 h1
                simp [swapA, hb1, hb2, hbp, hbq]

theorem swapA_comm (p q a : Nat) : swapA p q a = swapA q p a := by
  by_cases h1 : a = p
  · by_cases h2 : a = q
    · have h3 : p = q := h1.symm.trans h2
      simp [swapA, h1, h2, h3]
    · have h3 : ¬ p = q := fun hh => h2 (h1.trans hh)
      simp [swapA, h1, h2, h3]
  · by_cases h2 : a = q
    · have h3 : ¬ q = p := fun hh => h1 (h2.trans hh)
      simp [swapA, h1, h2, h3]
    · simp [swapA, h1, h2]

theorem relabelPtr_comm (p q : Nat) (h2 : Heap) :
    relabelPtr q p h2 = relabelPtr p q h2 := by
  have hfun : swapA q p = swapA p q := funext fun a => swapA_comm q p a
  unfold relabelPtr
  rw [hfun]

theorem relabelPtr_sizes (h : Heap) (p q : Nat) :
    relabelPtr p q (setSizeH (setSizeH h p (h q).size) q (h p).size) =
      relabelHeap p q h := by
  funext a
  apply NodeRec.ext
  · simp [relabelPtr, relabelHeap, setSizeH_value]
  · simp only [relabelPtr, relabelHeap, setSizeH_size]
    by_cases h1 : a = q
    · by_cases h2 : a = p
      · have h3 : p = q := h2.symm.trans h1
        simp [swapA, h1, h2, h3]
      · have h3 : ¬ q = p := fun hh => h2 (h1.trans hh)
        simp [swapA, h1, h2, h3]
    · by_cases h2 : a = p
      · have h3 : ¬ p = q := fun hh => h1 (h2.trans hh)
        simp [swapA, h1, h2, h3]
      · simp [swapA, h1, h2]
  · simp [relabelPtr, relabelHeap, setSizeH_left]
  · simp [relabelPtr, relabelHeap, setSizeH_right]
  · simp [relabelPtr, relabelHeap, setSizeH_parent]

/-- `exchange_nodes` is exactly the relabelling of the heap through the
transposition `p ↔ q`: the two node objects trade structural places while
each keeps its own stored value. -/
theorem exchange_nodes_eq_relabel (h : Heap) (p q : Nat)
    (hpo : ParentOk h) (hoo : OwnerOk h) (hcd : ChildrenDistinct h)
    (hsc : NoSelfChild h) (htc : NoTwoCycle h)
    (hp : (h p).parent ≠ p) (hq : (h q).parent ≠ q) (hpq : p ≠ q) :
    exchange_nodes h p q = relabelHeap p q h := by
  have hL : ∀ b, (setSizeH (setSizeH h p (h q).size) q (h p).size b).left =
      (h b).left := fun b => by rw [setSizeH_left, setSizeH_left]
  have hR : ∀ b, (setSizeH (setSizeH h p (h q).size) q (h p).size b).right =
      (h b).right := fun b => by rw [setSizeH_right, setSizeH_right]
  have hP : ∀ b, (setSizeH (setSizeH h p (h q).size) q (h p).size b).parent =
      (h b).parent := fun b => by rw [setSizeH_parent, setSizeH_parent]
  unfold exchange_nodes
  dsimp only
  set h1 : Heap := setSizeH (setSizeH h p (h q).size) q (h p).size with hh1
  have hpo1 : ParentOk h1 := by
    intro a c hac
    rw [hP c]
    apply hpo
    rcases hac with hc | hc
    · rw [hL a] at hc
      exact Or.inl hc
    · rw [hR a] at hc
      exact Or.inr hc
  have hoo1 : OwnerOk h1 := by
    intro a ha
    rw [hP a] at ha ⊢
    rw [hL (h a).parent, hR (h a).parent]
    exact hoo a ha
  have hcd1 : ChildrenDistinct h1 := by
    intro a c hc
    rw [hR a]
    rw [hL a] at hc
    exact hcd a c hc
  have hsc1 : NoSelfChild h1 := by
    intro a
    rw [hL a, hR a]
    exact hsc a
  have htc1 : NoTwoCycle h1 := by
    intro a b ha hb
    rw [hP a] at ha
    rw [hP b] at hb
    exact htc a b ha hb
  by_cases hcond : (h p).parent = q
  · rw [if_pos (by rw [hP p]; exact hcond)]
    rw [exchange_core_adjacent h1 q p hpo1 hoo1 hcd1 hsc1 htc1
      (by rw [hP q]; exact hq) (Ne.symm hpq) (by rw [hP p]; exact hcond)]
    rw [relabelPtr_comm, hh1]
    exact relabelPtr_sizes h p q
  · rw [if_neg (by rw [hP p]; exact hcond)]
    by_cases hcond2 : (h q).parent = p
    · rw [exchange_core_adjacent h1 p q hpo1 hoo1 hcd1 hsc1 htc1
        (by rw [hP p]; exact hp) hpq (by rw [hP q]; exact hcond2), hh1]
      exact relabelPtr_sizes h p q
    · rw [exchange_core_distant h1 p q hpo1 hoo1 hcd1 hsc1
        (by rw [hP p]; exact hp) (by rw [hP q]; exact hq) hpq
        (by rw [hP p]; exact hcond) (by rw [hP q]; exact hcond2), hh1]
      exact relabelPtr_sizes h p q


/-! ### Claim-level theorems

Each claim of the specification is settled by one theorem below, over the
definitions translated above from `tree/node.hpp` and `wb/tree.hpp`. -/

instance instDecOpPre (t : Node) (op : Op) : Decidable (opPre t op) :=
  match op with
  | Op.ins i _ => inferInstanceAs (Decidable (i ≤ size t))
  | Op.del i => inferInstanceAs (Decidable (i < size t))
  | Op.exch i j => inferInstanceAs (Decidable (i < size t ∧ j < size t))

instance instDecValidFrom (t : Node) (ops : List Op) :
    Decidable (ValidFrom t ops) :=
  match ops with
  | [] => inferInstanceAs (Decidable True)
  | op :: ops =>
    have : Decidable (ValidFrom (applyOp t op) ops) := instDecValidFrom _ ops
    inferInstanceAs (Decidable (opPre t op ∧ ValidFrom (applyOp t op) ops))

instance instDecPartitioned (cmp : Int → Int) (xs : List Int) :
    Decidable (Partitioned cmp xs) :=
  inferInstanceAs (Decidable (List.Pairwise _ xs))

theorem exchange_core_value (h : Heap) (p q b : Nat) :
    ((exchange_core h p q) b).value = (h b).value := by
  unfold exchange_core
  dsimp only
  split
  · split <;> simp only [fixParent_value, setRightH_value, setLeftH_value,
      setParentH_value, writeSlot_value]
  · simp only [fixParent_value, setRightH_value, setLeftH_value,
      setParentH_value, writeSlot_value]

/-- `exchange_nodes` never assigns any `value_` field: every statement of the
C++ body writes only `size_`, `left_`, `right_` or `parent_`. -/
theorem exchange_nodes_value (h : Heap) (p q a : Nat) :
    ((exchange_nodes h p q) a).value = (h a).value := by
  unfold exchange_nodes
  split <;> rw [exchange_core_value, setSizeH_value, setSizeH_value]

theorem swapA_invol (p q a : Nat) : swapA p q (swapA p q a) = a := by
  unfold swapA
  split_ifs <;> omega

theorem ParentOk_relabelHeap (h : Heap) (p q : Nat) (hpo : ParentOk h) :
    ParentOk (relabelHeap p q h) := by
  intro a c hac
  simp only [relabelHeap] at hac ⊢
  rcases hac with hc | hc
  · obtain ⟨x, hx, hfx⟩ := Option.map_eq_some'.mp hc
    have hx2 : x = swapA p q c := by rw [← hfx, swapA_invol]
    rw [hx2] at hx
    rw [hpo (swapA p q a) (swapA p q c) (Or.inl hx), swapA_invol]
  · obtain ⟨x, hx, hfx⟩ := Option.map_eq_some'.mp hc
    have hx2 : x = swapA p q c := by rw [← hfx, swapA_invol]
    rw [hx2] at hx
    rw [hpo (swapA p q a) (swapA p q c) (Or.inr hx), swapA_invol]

/-- Build a 7-element tree by valid inserts: values `0..6` inserted at
positions `[0, 0, 0, 0, 0, 2, 2]`, giving the inorder sequence
`[4, 3, 6, 5, 2, 1, 0]`. -/
def c1Ops : List Op :=
  [Op.ins 0 0, Op.ins 0 1, Op.ins 0 2, Op.ins 0 3, Op.ins 0 4,
    Op.ins 2 5, Op.ins 2 6]

def c1Tree : Node := applyOps Node.leaf c1Ops

/-- Claim C1: REFUTED (code bug).  A tree reached from the empty tree by
seven valid inserts satisfies both invariants, yet erasing the element at
inorder index 5 leaves the weight-balance invariant violated at a node
(the stored sizes stay correct).  The root cause is the non-strict `<=` in
`is_single` (`node.hpp` line 79): at the boundary `size(left)+1 ==
2*(size(right)+1)` the rebalancing after erase picks a single rotation
where only a double rotation restores `3*(size(sibling)+1) >=
size(other)+1`. -/
theorem c1_erase_breaks_weight_balance :
    ValidFrom Node.leaf c1Ops ∧
    sizeOk c1Tree = true ∧ balancedB c1Tree = true ∧
    5 < size c1Tree ∧
    sizeOk (erase_self c1Tree 5) = true ∧
    balancedB (erase_self c1Tree 5) = false := by
  decide

/-- Example tree with inorder sequence `[0, 1, 2, 3, 4]`, built by valid
end-position inserts; used by the concrete witnesses below. -/
def egTree : Node := applyOps Node.leaf
  [Op.ins 0 0, Op.ins 1 1, Op.ins 2 2, Op.ins 3 3, Op.ins 4 4]

def egCmp : Int → Int := fun x => x - 2

def egCmpL : Int → Int := fun x => x - 3

def egCmpR : Int → Int := fun x => x - 1

/-- Claim C2: CONFIRMED.  On a non-empty tree whose inorder sequence is
partitioned by `cmp` (`(<0)*, (==0)*, (>0)*`), `lower_bound_node` returns
the inorder index of the first element `x` with `cmp x >= 0` and
`upper_bound_node` the index of the first with `cmp x > 0`;
`List.findIdx` returns the list length — index `size t`, i.e. `end()` —
when no element qualifies. -/
theorem c2_search_bounds (t : Node) (cmp : Int → Int) (hne : t ≠ Node.leaf)
    (hs : sizeOk t = true) (hp : Partitioned cmp (toList t)) :
    lower_bound_node t cmp =
      (toList t).findIdx (fun x => decide (0 ≤ cmp x)) ∧
    upper_bound_node t cmp =
      (toList t).findIdx (fun x => decide (0 < cmp x)) :=
  ⟨lower_bound_node_eq t cmp hs hp, upper_bound_node_eq t cmp hs hp⟩

theorem c2_search_bounds_witness :
    lower_bound_node egTree egCmp =
      (toList egTree).findIdx (fun x => decide (0 ≤ egCmp x)) ∧
    upper_bound_node egTree egCmp =
      (toList egTree).findIdx (fun x => decide (0 < egCmp x)) :=
  c2_search_bounds egTree egCmp (by decide) (by decide) (by decide)

/-- Claim C3: CONFIRMED.  Inserting `v` at a valid position `i` (an element
index or `size t`, i.e. `end()`) produces the old inorder sequence with `v`
placed immediately before position `i`, keeps the stored-size invariant,
grows the size by exactly 1, and the new element sits at index `i` holding
`v` (the returned iterator); every old element keeps its value and relative
order, being in `take i` or `drop i` unchanged. -/
theorem c3_insert_spec (t : Node) (i : Nat) (v : Int)
    (hs : sizeOk t = true) (hi : i ≤ size t) :
    toList (insert_before_self t i v) =
      (toList t).take i ++ v :: (toList t).drop i ∧
    size (insert_before_self t i v) = size t + 1 ∧
    sizeOk (insert_before_self t i v) = true ∧
    (toList (insert_before_self t i v)).getD i 0 = v := by
  refine ⟨toList_insert_before_self t i v hs hi,
    size_insert_before_self t i v hs hi,
    sizeOk_insert_before_self t i v hs, ?_⟩
  rw [toList_insert_before_self t i v hs hi]
  have hlen : ((toList t).take i).length = i := by
    rw [List.length_take, length_toList t hs]
    omega
  have h0 := getD_app_ge ((toList t).take i) (v :: (toList t).drop i) 0 (0 : Int)
  rw [hlen, Nat.add_zero] at h0
  exact h0.trans (by simp)

theorem c3_insert_spec_witness :
    toList (insert_before_self egTree 2 9) =
      (toList egTree).take 2 ++ 9 :: (toList egTree).drop 2 ∧
    size (insert_before_self egTree 2 9) = size egTree + 1 ∧
    sizeOk (insert_before_self egTree 2 9) = true ∧
    (toList (insert_before_self egTree 2 9)).getD 2 0 = 9 :=
  c3_insert_spec egTree 2 9 (by decide) (by decide)

/-- Claim C4: CONFIRMED.  Erasing the element at a valid index `i` removes
exactly that element (the remaining values keep their relative inorder
order, being `take i` and `drop (i+1)` unchanged), keeps the stored-size
invariant, shrinks the size by exactly 1, and the former inorder successor
— old index `i+1` when one exists — now sits at index `i`, which is what
`tree::erase` returns; when the erased element was last, index `i` equals
the new size, i.e. `end()`. -/
theorem c4_erase_spec (t : Node) (i : Nat)
    (hs : sizeOk t = true) (hi : i < size t) :
    toList (erase_self t i) = (toList t).take i ++ (toList t).drop (i + 1) ∧
    size (erase_self t i) = size t - 1 ∧
    sizeOk (erase_self t i) = true ∧
    (i + 1 < size t →
      (toList (erase_self t i)).getD i 0 = (toList t).getD (i + 1) 0) := by
  refine ⟨toList_erase_self t i hs hi, size_erase_self t i hs hi,
    sizeOk_erase_self t i hs, fun hlt => ?_⟩
  rw [toList_erase_self t i hs hi]
  have hlen2 : (toList t).length = size t := length_toList t hs
  have hlen : ((toList t).take i).length = i := by
    rw [List.length_take]
    omega
  rw [drop_eq_getD_cons (0 : Int) (toList t) (i + 1) (by omega)]
  have h0 := getD_app_ge ((toList t).take i)
    ((toList t).getD (i + 1) 0 :: (toList t).drop (i + 1 + 1)) 0 (0 : Int)
  rw [hlen, Nat.add_zero] at h0
  exact h0.trans (by simp)

theorem c4_erase_spec_witness :
    toList (erase_self egTree 1) =
      (toList egTree).take 1 ++ (toList egTree).drop 2 ∧
    size (erase_self egTree 1) = size egTree - 1 ∧
    sizeOk (erase_self egTree 1) = true ∧
    (1 + 1 < size egTree →
      (toList (erase_self egTree 1)).getD 1 0 = (toList egTree).getD 2 0) :=
  c4_erase_spec egTree 1 (by decide) (by decide)

/-- A concrete well-formed heap: sentinel at address 0 (self-parented, root
in its `left_` slot), a real node at address 1 (value 10, right child at 2)
and a real node at address 2 (value 20, a leaf); all other addresses hold
detached self-parented records. -/
def exHeap : Heap := fun a =>
  if a = 0 then
    { value := 0, size := 0, left := some 1, right := none, parent := 0 }
  else if a = 1 then
    { value := 10, size := 2, left := none, right := some 2, parent := 0 }
  else if a = 2 then
    { value := 20, size := 1, left := none, right := none, parent := 1 }
  else { value := 0, size := 0, left := none, right := none, parent := a }

/-- Claim C5: REFUTED as stated.  In the heap `exHeap`, addresses 1 and 2
hold real elements (non-self-parented nodes) with values 10 and 20; after
`exchange_nodes` the iterator holding address 1 still dereferences to 10,
not to the value 20 formerly at the other node's position — the function
moves the node objects themselves and never writes a `value_` field, so
iterators keep their values and instead change position. -/
theorem c5_counterexample :
    (exHeap 1).parent ≠ 1 ∧ (exHeap 2).parent ≠ 2 ∧ (1 : Nat) ≠ 2 ∧
    (exHeap 2).value = 20 ∧ ((exchange_nodes exHeap 1 2) 1).value = 10 ∧
    ((exchange_nodes exHeap 1 2) 1).value ≠ (exHeap 2).value := by
  decide

/-- Claim C5: CORRECTED.  `exchange_nodes` relocates the two node objects
rather than swapping stored values: after the call every address still
holds its original `value_` (so dereferencing the iterator `i` yields the
value it held before, now at `j`'s old position), the represented inorder
sequence is the old one with the entries at the two positions swapped (no
other element's value changes), and the size is unchanged. -/
theorem c5_exchange_amended (h : Heap) (p q a : Nat) (t : Node) (i j : Nat)
    (hs : sizeOk t = true) (hi : i < size t) (hj : j < size t) :
    ((exchange_nodes h p q) a).value = (h a).value ∧
    toList (exchange_elements t i j) =
      ((toList t).set i ((toList t).getD j 0)).set j ((toList t).getD i 0) ∧
    size (exchange_elements t i j) = size t :=
  ⟨exchange_nodes_value h p q a, toList_exchange_elements t i j hs,
    size_exchange_elements t i j⟩

theorem c5_exchange_amended_witness :
    ((exchange_nodes exHeap 1 2) 1).value = (exHeap 1).value ∧
    toList (exchange_elements egTree 0 2) =
      ((toList egTree).set 0 ((toList egTree).getD 2 0)).set 2
        ((toList egTree).getD 0 0) ∧
    size (exchange_elements egTree 0 2) = size egTree :=
  c5_exchange_amended exHeap 1 2 1 egTree 0 2 (by decide) (by decide) (by decide)

theorem exHeap_big (a : Nat) (h3 : 3 ≤ a) :
    exHeap a =
      { value := 0, size := 0, left := none, right := none, parent := a } := by
  unfold exHeap
  rw [if_neg (by omega), if_neg (by omega), if_neg (by omega)]

theorem exHeap_parentOk : ParentOk exHeap := by
  intro a c hac
  rcases Nat.lt_or_ge a 3 with ha | ha
  · interval_cases a
    · rcases hac with hc | hc
      · have hc2 : c = 1 := by simpa [exHeap] using hc.symm
        subst hc2
        decide
      · simp [exHeap] at hc
    · rcases hac with hc | hc
      · simp [exHeap] at hc
      · have hc2 : c = 2 := by simpa [exHeap] using hc.symm
        subst hc2
        decide
    · rcases hac with hc | hc
      · simp [exHeap] at hc
      · simp [exHeap] at hc
  · rw [exHeap_big a ha] at hac
    rcases hac with hc | hc <;> exact absurd hc (by simp)

theorem exHeap_ownerOk : OwnerOk exHeap := by
  intro a ha
  rcases Nat.lt_or_ge a 3 with h3 | h3
  · interval_cases a
    · exact absurd rfl ha
    · left
      decide
    · right
      decide
  · exact absurd (by rw [exHeap_big a h3]) ha

theorem exHeap_childrenDistinct : ChildrenDistinct exHeap := by
  intro a c h1
  rcases Nat.lt_or_ge a 3 with h3 | h3
  · interval_cases a
    · have hc2 : c = 1 := by simpa [exHeap] using h1.symm
      subst hc2
      decide
    · simp [exHeap] at h1
    · simp [exHeap] at h1
  · rw [exHeap_big a h3] at h1
    exact absurd h1 (by simp)

theorem exHeap_noSelfChild : NoSelfChild exHeap := by
  intro a
  rcases Nat.lt_or_ge a 3 with h3 | h3
  · interval_cases a <;> exact ⟨by decide, by decide⟩
  · rw [exHeap_big a h3]
    exact ⟨by simp, by simp⟩

theorem exHeap_noTwoCycle : NoTwoCycle exHeap := by
  intro a b h1 h2
  rcases Nat.lt_or_ge a 3 with h3 | h3
  · rcases Nat.lt_or_ge b 3 with h4 | h4
    · interval_cases a <;> interval_cases b <;> revert h1 h2 <;> decide
    · rw [exHeap_big b h4] at h2
      have : b = a := h2
      omega
  · rw [exHeap_big a h3] at h1
    have : a = b := h1
    omega

/-- Claim C6: CONFIRMED.  For two distinct real nodes `p`, `q` of a
well-formed heap, `exchange_nodes` produces exactly the relabelling of the
heap through the transposition `p <-> q` (theorem
`exchange_nodes_eq_relabel`); consequently every address takes over the
stored `size_` of the slot it now occupies — the multiset of sizes along
every ancestor path is untouched and no rebalancing happens — and every
child's parent pointer again identifies its parent.  On the represented
sequence (where the shape, the stored sizes and hence both structural
invariants live) the exchange keeps `sizeOk`, keeps the weight-balance
invariant, leaves the skeleton (shape plus every stored size) unchanged,
and swaps exactly the two positions. -/
theorem c6_exchange_preserves_invariants (h : Heap) (p q a c : Nat)
    (hpo : ParentOk h) (hoo : OwnerOk h) (hcd : ChildrenDistinct h)
    (hsc : NoSelfChild h) (htc : NoTwoCycle h)
    (hp : (h p).parent ≠ p) (hq : (h q).parent ≠ q) (hpq : p ≠ q)
    (t : Node) (i j : Nat) (hs : sizeOk t = true) (hb : balancedB t = true) :
    ((exchange_nodes h p q) a).size = (h (swapA p q a)).size ∧
    (((exchange_nodes h p q) a).left = some c ∨
        ((exchange_nodes h p q) a).right = some c →
      ((exchange_nodes h p q) c).parent = a) ∧
    sizeOk (exchange_elements t i j) = true ∧
    balancedB (exchange_elements t i j) = true ∧
    skel (exchange_elements t i j) = skel t ∧
    toList (exchange_elements t i j) =
      ((toList t).set i ((toList t).getD j 0)).set j ((toList t).getD i 0) := by
  have hrel := exchange_nodes_eq_relabel h p q hpo hoo hcd hsc htc hp hq hpq
  refine ⟨?_, ?_, sizeOk_exchange_elements t i j hs, ?_,
    skel_exchange_elements t i j, toList_exchange_elements t i j hs⟩
  · rw [hrel]
    rfl
  · rw [hrel]
    exact fun hx => ParentOk_relabelHeap h p q hpo a c hx
  · rw [balancedB_exchange_elements]
    exact hb

theorem c6_exchange_preserves_invariants_witness :
    ((exchange_nodes exHeap 1 2) 2).size = (exHeap (swapA 1 2 2)).size ∧
    (((exchange_nodes exHeap 1 2) 2).left = some 1 ∨
        ((exchange_nodes exHeap 1 2) 2).right = some 1 →
      ((exchange_nodes exHeap 1 2) 1).parent = 2) ∧
    sizeOk (exchange_elements egTree 1 3) = true ∧
    balancedB (exchange_elements egTree 1 3) = true ∧
    skel (exchange_elements egTree 1 3) = skel egTree ∧
    toList (exchange_elements egTree 1 3) =
      ((toList egTree).set 1 ((toList egTree).getD 3 0)).set 3
        ((toList egTree).getD 1 0) :=
  c6_exchange_preserves_invariants exHeap 1 2 2 1 exHeap_parentOk
    exHeap_ownerOk exHeap_childrenDistinct exHeap_noSelfChild exHeap_noTwoCycle
    (by decide) (by decide) (by decide) egTree 1 3 (by decide) (by decide)

/-- Claim C7: CONFIRMED.  Along any valid sequence of insert, erase and
exchange operations from the empty (default-constructed) tree, the final
size equals the number of insertions minus the number of deletions, and the
forward iteration `begin()` to `end()` (`fwdTrav`, which follows
`inorder_successor` from `begin()`) visits exactly `size()` elements. -/
theorem c7_size_counts (ops : List Op) (hv : ValidFrom Node.leaf ops) :
    size (applyOps Node.leaf ops) = insCount ops - delCount ops ∧
    (fwdTrav (applyOps Node.leaf ops)).length = size (applyOps Node.leaf ops) := by
  obtain ⟨h1, h2⟩ := applyOps_size ops Node.leaf rfl hv
  have h0 : size (Node.leaf : Node) = 0 := rfl
  refine ⟨by omega, ?_⟩
  rw [fwdTrav_eq _ h1, length_toList _ h1]

def egOps : List Op :=
  [Op.ins 0 5, Op.ins 1 7, Op.ins 0 3, Op.exch 0 2, Op.del 1]

theorem c7_size_counts_witness :
    size (applyOps Node.leaf egOps) = insCount egOps - delCount egOps ∧
    (fwdTrav (applyOps Node.leaf egOps)).length =
      size (applyOps Node.leaf egOps) :=
  c7_size_counts egOps (by decide)

/-- Claim C8: CONFIRMED.  Incrementing the `end()` iterator (the sentinel,
`none` in the path model) yields `end()` again in every tree, and the
backward traversal obtained by decrementing from `end()` until `begin()`
(`bwdTrav`) is exactly the reverse of the forward traversal (`fwdTrav`). -/
theorem c8_end_iteration (t t2 : Node) (hs : sizeOk t = true) :
    inorder_successor t2 none = none ∧ bwdTrav t = (fwdTrav t).reverse := by
  refine ⟨rfl, ?_⟩
  rw [bwdTrav_eq t hs, fwdTrav_eq t hs]

theorem c8_end_iteration_witness :
    inorder_successor egTree none = none ∧
    bwdTrav egTree = (fwdTrav egTree).reverse :=
  c8_end_iteration egTree egTree (by decide)

/-- Claim C9: CONFIRMED (`equal_range_nodes` and `range_between_nodes` are
modelled from the spec, their code being absent from the sources).  Under
the partition preconditions, `tree::equal_range cmp` equals the pair
`(lower_bound cmp, upper_bound cmp)` and `tree::range_between lcmp rcmp` —
with `lcmp x <= rcmp x` everywhere — equals `(lower_bound lcmp, upper_bound
rcmp)`; on the empty tree all four entry points are guarded by the
`sentinel_.left_` test and return `end()` (index 0 = size of the empty
tree) for every comparator whatsoever, without evaluating any. -/
theorem c9_range_queries (t : Node) (cmp lcmp rcmp cmpA cmpB : Int → Int)
    (hp : Partitioned cmp (toList t)) (hpl : Partitioned lcmp (toList t))
    (hpr : Partitioned rcmp (toList t)) (hlr : ∀ x : Int, lcmp x ≤ rcmp x) :
    tree_equal_range t cmp = (tree_lower_bound t cmp, tree_upper_bound t cmp) ∧
    tree_range_between t lcmp rcmp =
      (tree_lower_bound t lcmp, tree_upper_bound t rcmp) ∧
    tree_lower_bound Node.leaf cmpA = 0 ∧
    tree_upper_bound Node.leaf cmpA = 0 ∧
    tree_equal_range Node.leaf cmpA = (0, 0) ∧
    tree_range_between Node.leaf cmpA cmpB = (0, 0) := by
  cases t with
  | leaf => exact ⟨rfl, rfl, rfl, rfl, rfl, rfl⟩
  | node v s l r => exact ⟨rfl, rfl, rfl, rfl, rfl, rfl⟩

theorem c9_range_queries_witness :
    tree_equal_range egTree egCmp =
      (tree_lower_bound egTree egCmp, tree_upper_bound egTree egCmp) ∧
    tree_range_between egTree egCmpL egCmpR =
      (tree_lower_bound egTree egCmpL, tree_upper_bound egTree egCmpR) ∧
    tree_lower_bound Node.leaf egCmp = 0 ∧
    tree_upper_bound Node.leaf egCmp = 0 ∧
    tree_equal_range Node.leaf egCmp = (0, 0) ∧
    tree_range_between Node.leaf egCmp egCmp = (0, 0) :=
  c9_range_queries egTree egCmp egCmpL egCmpR egCmp egCmp (by decide)
    (by decide) (by decide) (fun x => by
      show x - 3 ≤ x - 1
      omega)

/-- Claim C10: CONFIRMED.  Decrementing `begin()` yields `end()` in every
tree, the empty tree included: on a non-empty tree `begin()` is the
leftmost real node, it has no left child, and the climb through
left-child edges passes the root and stops at the sentinel; on the empty
tree `begin()` already is the sentinel, whose `left_` is null, and the
walk up from the self-parented sentinel returns the sentinel itself. -/
theorem c10_decrement_begin (t : Node) :
    inorder_predecessor t (beginIter t) = none :=
  pred_begin t

end WB
